import Mathlib

/-!
Verification development for the nano-light syntax highlighter.

The development shallowly embeds the pattern-priority tokenization engine of
`src/highlight.ts` together with the pattern tables of `src/patterns/javascript.ts`
and `src/patterns/html.ts` and the utilities of `src/utils.ts`.

Source text is modelled as `List Char`.  Each regular expression of the pattern
tables is transcribed, constructor by constructor, into a small regex AST (`RE`)
whose matching function `matchEnds` enumerates candidate match ends in exactly
the exploration order of a backtracking regex engine (alternatives left to
right, greedy repetition longest-first, lazy repetition shortest-first), so the
head of the enumeration is the match a JavaScript `RegExp` produces.  The
`g`-flag `exec` scan loop, the per-character claim set (`processed` in the
source), the script-area locator, the coordinate translation of embedded
JavaScript tokens and the final sort by `start` are embedded directly.
-/

/-- Token kinds, from the TokenType union of src/types.ts. -/
inductive TokenType where
  | keyword
  | string
  | number
  | comment
  | operator
  | tag
  | attrName
  | attrValue
  deriving DecidableEq, Repr

/-- A token, from the Token interface of src/types.ts.  The `end` field of the
source is called `stop` here because `end` is reserved in Lean. -/
structure Token where
  type : TokenType
  value : List Char
  start : Nat
  stop : Nat
  deriving DecidableEq, Repr

/-- The substring of `s` between offsets `a` (inclusive) and `b` (exclusive),
modelling JavaScript `s.slice(a, b)` for `0 <= a <= b`. -/
def sliceStr (s : List Char) (a b : Nat) : List Char :=
  (s.drop a).take (b - a)

/-- Regex abstract syntax, covering exactly the constructs used by the
pattern tables: character classes, concatenation, ordered alternation,
greedy and lazy repetition, greedy option, lookahead, the word boundary
assertion, and the end-of-input anchor with (`eom`) and without (`eos`)
multiline semantics. -/
inductive RE where
  | cls (p : Char → Bool)
  | seq (a b : RE)
  | alt (a b : RE)
  | star (r : RE)
  | starL (r : RE)
  | opt (r : RE)
  | look (r : RE)
  | wordB
  | eos
  | eom

/-- JavaScript regex word characters, the class `[A-Za-z0-9_]`. -/
def isWordChar (c : Char) : Bool :=
  c.isAlphanum || c == '_'

/-- Whether the character at offset `i` of `s` exists and is a word character. -/
def wordAt (s : List Char) (i : Nat) : Bool :=
  match s[i]? with
  | some c => isWordChar c
  | none => false

/-- The `\b` assertion at offset `i`: word-character-ness changes between the
previous character (out of range counts as non-word) and the current one. -/
def boundaryAt (s : List Char) (i : Nat) : Bool :=
  match i with
  | 0 => wordAt s 0
  | j + 1 => wordAt s j != wordAt s (j + 1)

/-- The multiline `$` assertion at offset `i`: end of input or a line
terminator follows. -/
def atLineEnd (s : List Char) (i : Nat) : Bool :=
  match s[i]? with
  | none => true
  | some c => c == '\n' || c == '\r' || c == Char.ofNat 0x2028 || c == Char.ofNat 0x2029

/-- Candidate ends of a greedy repetition whose body ends are enumerated by
`f`: longer repetitions are tried first, the empty repetition last; only
body matches that consume at least one character are iterated, as in a
JavaScript engine. -/
def starEnds (f : Nat → List Nat) : Nat → Nat → List Nat
  | 0, i => [i]
  | fuel + 1, i =>
      (((f i).filter (fun e => decide (i < e))).flatMap (fun e => starEnds f fuel e)) ++ [i]

/-- Candidate ends of a lazy repetition: the empty repetition is tried first. -/
def starLEnds (f : Nat → List Nat) : Nat → Nat → List Nat
  | 0, i => [i]
  | fuel + 1, i =>
      i :: ((f i).filter (fun e => decide (i < e))).flatMap (fun e => starLEnds f fuel e)

/-- All candidate end offsets of a match of `r` starting at offset `i` of `s`,
in backtracking priority order; the head is the end a JavaScript `RegExp`
match at `i` yields. -/
def matchEnds (s : List Char) : RE → Nat → List Nat
  | .cls p, i =>
      match s[i]? with
      | some c => if p c then [i + 1] else []
      | none => []
  | .seq a b, i => (matchEnds s a i).flatMap (fun m => matchEnds s b m)
  | .alt a b, i => matchEnds s a i ++ matchEnds s b i
  | .star r, i => starEnds (matchEnds s r) (s.length + 1 - i) i
  | .starL r, i => starLEnds (matchEnds s r) (s.length + 1 - i) i
  | .opt r, i => matchEnds s r i ++ [i]
  | .look r, i => if (matchEnds s r i).isEmpty then [] else [i]
  | .wordB, i => if boundaryAt s i then [i] else []
  | .eos, i => if i == s.length then [i] else []
  | .eom, i => if atLineEnd s i then [i] else []

/-- Length of the match of `r` at offset `i` of `s`, if any. -/
def reMatchAt (r : RE) (s : List Char) (i : Nat) : Option Nat :=
  match matchEnds s r i with
  | [] => none
  | e :: _ => some (e - i)

/-- A single literal character. -/
def lit (c : Char) : RE := .cls (fun d => d == c)

/-- A single literal character under the `i` flag. -/
def litCI (c : Char) : RE := .cls (fun d => d.toLower == c.toLower)

/-- The class `[\s\S]`: any character. -/
def anyChar : RE := .cls (fun _ => true)

/-- The metacharacter `.`: any character except a line terminator. -/
def dot : RE :=
  .cls (fun c => !(c == '\n' || c == '\r' || c == Char.ofNat 0x2028 || c == Char.ofNat 0x2029))

/-- A regex matching nothing but the empty string. -/
def emptyRE : RE := .opt (.cls (fun _ => false))

/-- A literal character sequence. -/
def strRE : List Char → RE
  | [] => emptyRE
  | [c] => lit c
  | c :: cs => .seq (lit c) (strRE cs)

/-- A literal character sequence under the `i` flag. -/
def strCI : List Char → RE
  | [] => emptyRE
  | [c] => litCI c
  | c :: cs => .seq (litCI c) (strCI cs)

/-- Greedy `+`, one or more repetitions. -/
def plusRE (r : RE) : RE := .seq r (.star r)

/-- Left-to-right alternation of a list of regexes. -/
def altList : List RE → RE
  | [] => .cls (fun _ => false)
  | [r] => r
  | r :: rs => .alt r (altList rs)

/-- Whether every match of the regex necessarily consumes at least one
character (a syntactic under-approximation sufficient for the pattern
tables). -/
def REconsumes : RE → Bool
  | .cls _ => true
  | .seq a b => REconsumes a || REconsumes b
  | .alt a b => REconsumes a && REconsumes b
  | .star _ => false
  | .starL _ => false
  | .opt _ => false
  | .look _ => false
  | .wordB => false
  | .eos => false
  | .eom => false

/-- Characters with which a match of the regex that consumes at least one
character can begin (a syntactic over-approximation; when the first part of a
concatenation always consumes, the first character comes from it alone). -/
def canStart : RE → Char → Bool
  | .cls p, c => p c
  | .seq a b, c => if REconsumes a then canStart a c else canStart a c || canStart b c
  | .alt a b, c => canStart a c || canStart b c
  | .star r, c => canStart r c
  | .starL r, c => canStart r c
  | .opt r, c => canStart r c
  | .look _, _ => false
  | .wordB, _ => false
  | .eos, _ => false
  | .eom, _ => false

/-! ### Basic lemmas about the matching engine -/

theorem starEnds_ge {f : Nat → List Nat} (h : ∀ i e, e ∈ f i → i ≤ e) :
    ∀ fuel i e, e ∈ starEnds f fuel i → i ≤ e := by
  intro fuel
  induction fuel with
  | zero =>
      intro i e he
      simp [starEnds] at he
      omega
  | succ n ih =>
      intro i e he
      simp only [starEnds, List.mem_append, List.mem_flatMap, List.mem_filter,
        List.mem_singleton] at he
      rcases he with ⟨m, ⟨hm, hlt⟩, hrec⟩ | rfl
      · have h1 := ih m e hrec
        have h2 := h i m hm
        omega
      · omega

theorem starLEnds_ge {f : Nat → List Nat} (h : ∀ i e, e ∈ f i → i ≤ e) :
    ∀ fuel i e, e ∈ starLEnds f fuel i → i ≤ e := by
  intro fuel
  induction fuel with
  | zero =>
      intro i e he
      simp [starLEnds] at he
      omega
  | succ n ih =>
      intro i e he
      simp only [starLEnds, List.mem_cons, List.mem_flatMap, List.mem_filter] at he
      rcases he with rfl | ⟨m, ⟨hm, hlt⟩, hrec⟩
      · omega
      · have h1 := ih m e hrec
        have h2 := h i m hm
        omega

/-- Every candidate match end is at or after the match start. -/
theorem matchEnds_ge (s : List Char) : ∀ (r : RE) (i e : Nat), e ∈ matchEnds s r i → i ≤ e := by
  intro r
  induction r with
  | cls p =>
      intro i e he
      simp only [matchEnds] at he
      cases hg : s[i]? with
      | some c =>
          rw [hg] at he
          by_cases hp : p c
          · simp [hp] at he; omega
          · simp [hp] at he
      | none => rw [hg] at he; simp at he
  | seq a b iha ihb =>
      intro i e he
      simp only [matchEnds, List.mem_flatMap] at he
      obtain ⟨m, hm, hb⟩ := he
      have := iha i m hm
      have := ihb m e hb
      omega
  | alt a b iha ihb =>
      intro i e he
      simp only [matchEnds, List.mem_append] at he
      rcases he with h | h
      · exact iha i e h
      · exact ihb i e h
  | star r ih =>
      intro i e he
      exact starEnds_ge (fun j m hm => ih j m hm) _ i e he
  | starL r ih =>
      intro i e he
      exact starLEnds_ge (fun j m hm => ih j m hm) _ i e he
  | opt r ih =>
      intro i e he
      simp only [matchEnds, List.mem_append, List.mem_singleton] at he
      rcases he with h | rfl
      · exact ih i e h
      · omega
  | look r ih =>
      intro i e he
      simp only [matchEnds] at he
      split at he <;> simp at he
      omega
  | wordB =>
      intro i e he
      simp only [matchEnds] at he
      split at he <;> simp at he
      omega
  | eos =>
      intro i e he
      simp only [matchEnds] at he
      split at he <;> simp at he
      omega
  | eom =>
      intro i e he
      simp only [matchEnds] at he
      split at he <;> simp at he
      omega

theorem starEnds_le {f : Nat → List Nat} {n : Nat}
    (h : ∀ i e, i ≤ n → e ∈ f i → e ≤ n) :
    ∀ fuel i e, i ≤ n → e ∈ starEnds f fuel i → e ≤ n := by
  intro fuel
  induction fuel with
  | zero =>
      intro i e hi he
      simp [starEnds] at he
      omega
  | succ m ih =>
      intro i e hi he
      simp only [starEnds, List.mem_append, List.mem_flatMap, List.mem_filter,
        List.mem_singleton] at he
      rcases he with ⟨j, ⟨hj, hlt⟩, hrec⟩ | rfl
      · exact ih j e (h i j hi hj) hrec
      · exact hi

theorem starLEnds_le {f : Nat → List Nat} {n : Nat}
    (h : ∀ i e, i ≤ n → e ∈ f i → e ≤ n) :
    ∀ fuel i e, i ≤ n → e ∈ starLEnds f fuel i → e ≤ n := by
  intro fuel
  induction fuel with
  | zero =>
      intro i e hi he
      simp [starLEnds] at he
      omega
  | succ m ih =>
      intro i e hi he
      simp only [starLEnds, List.mem_cons, List.mem_flatMap, List.mem_filter] at he
      rcases he with rfl | ⟨j, ⟨hj, hlt⟩, hrec⟩
      · exact hi
      · exact ih j e (h i j hi hj) hrec

/-- Candidate match ends never pass the end of the text. -/
theorem matchEnds_le (s : List Char) :
    ∀ (r : RE) (i e : Nat), i ≤ s.length → e ∈ matchEnds s r i → e ≤ s.length := by
  intro r
  induction r with
  | cls p =>
      intro i e hi he
      simp only [matchEnds] at he
      cases hg : s[i]? with
      | some c =>
          rw [hg] at he
          have hlt : i < s.length := by
            by_contra hge
            have : s[i]? = none := by
              apply getElem?_neg
              omega
            rw [this] at hg
            exact Option.noConfusion hg
          by_cases hp : p c
          · simp [hp] at he; omega
          · simp [hp] at he
      | none => rw [hg] at he; simp at he
  | seq a b iha ihb =>
      intro i e hi he
      simp only [matchEnds, List.mem_flatMap] at he
      obtain ⟨m, hm, hb⟩ := he
      exact ihb m e (iha i m hi hm) hb
  | alt a b iha ihb =>
      intro i e hi he
      simp only [matchEnds, List.mem_append] at he
      rcases he with h | h
      · exact iha i e hi h
      · exact ihb i e hi h
  | star r ih =>
      intro i e hi he
      exact starEnds_le (fun j m hj hm => ih j m hj hm) _ i e hi he
  | starL r ih =>
      intro i e hi he
      exact starLEnds_le (fun j m hj hm => ih j m hj hm) _ i e hi he
  | opt r ih =>
      intro i e hi he
      simp only [matchEnds, List.mem_append, List.mem_singleton] at he
      rcases he with h | rfl
      · exact ih i e hi h
      · exact hi
  | look r ih =>
      intro i e hi he
      simp only [matchEnds] at he
      split at he <;> simp at he
      omega
  | wordB =>
      intro i e hi he
      simp only [matchEnds] at he
      split at he <;> simp at he
      omega
  | eos =>
      intro i e hi he
      simp only [matchEnds] at he
      split at he <;> simp at he
      omega
  | eom =>
      intro i e hi he
      simp only [matchEnds] at he
      split at he <;> simp at he
      omega

/-- A match of a consuming regex ends strictly after its start. -/
theorem matchEnds_consumes (s : List Char) :
    ∀ (r : RE) (i e : Nat), REconsumes r = true → e ∈ matchEnds s r i → i < e := by
  intro r
  induction r with
  | cls p =>
      intro i e _ he
      simp only [matchEnds] at he
      cases hg : s[i]? with
      | some c =>
          rw [hg] at he
          by_cases hp : p c
          · simp [hp] at he; omega
          · simp [hp] at he
      | none => rw [hg] at he; simp at he
  | seq a b iha ihb =>
      intro i e hc he
      simp only [matchEnds, List.mem_flatMap] at he
      obtain ⟨m, hm, hb⟩ := he
      simp only [REconsumes, Bool.or_eq_true] at hc
      have h1 := matchEnds_ge s a i m hm
      have h2 := matchEnds_ge s b m e hb
      rcases hc with hc | hc
      · have := iha i m hc hm
        omega
      · have := ihb m e hc hb
        omega
  | alt a b iha ihb =>
      intro i e hc he
      simp only [REconsumes, Bool.and_eq_true] at hc
      simp only [matchEnds, List.mem_append] at he
      rcases he with h | h
      · exact iha i e hc.1 h
      · exact ihb i e hc.2 h
  | star r ih => intro i e hc he; simp [REconsumes] at hc
  | starL r ih => intro i e hc he; simp [REconsumes] at hc
  | opt r ih => intro i e hc he; simp [REconsumes] at hc
  | look r ih => intro i e hc he; simp [REconsumes] at hc
  | wordB => intro i e hc he; simp [REconsumes] at hc
  | eos => intro i e hc he; simp [REconsumes] at hc
  | eom => intro i e hc he; simp [REconsumes] at hc

theorem starEnds_start {f : Nat → List Nat} {s : List Char} {q : Char → Bool}
    (h : ∀ i e, e ∈ f i → i < e → ∃ c, s[i]? = some c ∧ q c = true) :
    ∀ fuel i e, e ∈ starEnds f fuel i → i < e → ∃ c, s[i]? = some c ∧ q c = true := by
  intro fuel
  induction fuel with
  | zero =>
      intro i e he hlt
      simp [starEnds] at he
      omega
  | succ n ih =>
      intro i e he hlt
      simp only [starEnds, List.mem_append, List.mem_flatMap, List.mem_filter,
        List.mem_singleton] at he
      rcases he with ⟨m, ⟨hm, hmlt⟩, hrec⟩ | rfl
      · exact h i m hm (by simpa using hmlt)
      · omega

theorem starLEnds_start {f : Nat → List Nat} {s : List Char} {q : Char → Bool}
    (h : ∀ i e, e ∈ f i → i < e → ∃ c, s[i]? = some c ∧ q c = true) :
    ∀ fuel i e, e ∈ starLEnds f fuel i → i < e → ∃ c, s[i]? = some c ∧ q c = true := by
  intro fuel
  induction fuel with
  | zero =>
      intro i e he hlt
      simp [starLEnds] at he
      omega
  | succ n ih =>
      intro i e he hlt
      simp only [starLEnds, List.mem_cons, List.mem_flatMap, List.mem_filter] at he
      rcases he with rfl | ⟨m, ⟨hm, hmlt⟩, hrec⟩
      · omega
      · exact h i m hm (by simpa using hmlt)

/-- A match that consumes at least one character begins with a character the
regex can start with. -/
theorem matchEnds_canStart (s : List Char) :
    ∀ (r : RE) (i e : Nat), e ∈ matchEnds s r i → i < e →
      ∃ c, s[i]? = some c ∧ canStart r c = true := by
  intro r
  induction r with
  | cls p =>
      intro i e he hlt
      simp only [matchEnds] at he
      cases hg : s[i]? with
      | some c =>
          rw [hg] at he
          by_cases hp : p c
          · exact ⟨c, rfl, by simpa [canStart] using hp⟩
          · simp [hp] at he
      | none => rw [hg] at he; simp at he
  | seq a b iha ihb =>
      intro i e he hlt
      simp only [matchEnds, List.mem_flatMap] at he
      obtain ⟨m, hm, hb⟩ := he
      by_cases hme : i < m
      · obtain ⟨c, hc, hs⟩ := iha i m hm hme
        refine ⟨c, hc, ?_⟩
        simp only [canStart]
        split <;> simp [hs]
      · have hmi : m = i := by
          have := matchEnds_ge s a i m hm
          omega
        subst hmi
        obtain ⟨c, hc, hs⟩ := ihb m e hb hlt
        refine ⟨c, hc, ?_⟩
        simp only [canStart]
        cases hcons : REconsumes a with
        | true =>
            have := matchEnds_consumes s a m m hcons hm
            omega
        | false => simp [hs]
  | alt a b iha ihb =>
      intro i e he hlt
      simp only [matchEnds, List.mem_append] at he
      rcases he with h | h
      · obtain ⟨c, hc, hs⟩ := iha i e h hlt
        exact ⟨c, hc, by simp [canStart, hs]⟩
      · obtain ⟨c, hc, hs⟩ := ihb i e h hlt
        exact ⟨c, hc, by simp [canStart, hs]⟩
  | star r ih =>
      intro i e he hlt
      have := starEnds_start (s := s) (q := canStart r)
        (fun j m hm hjm => ih j m hm hjm) _ i e he hlt
      simpa [canStart] using this
  | starL r ih =>
      intro i e he hlt
      have := starLEnds_start (s := s) (q := canStart r)
        (fun j m hm hjm => ih j m hm hjm) _ i e he hlt
      simpa [canStart] using this
  | opt r ih =>
      intro i e he hlt
      simp only [matchEnds, List.mem_append, List.mem_singleton] at he
      rcases he with h | rfl
      · obtain ⟨c, hc, hs⟩ := ih i e h hlt
        exact ⟨c, hc, by simp [canStart, hs]⟩
      · omega
  | look r ih =>
      intro i e he hlt
      simp only [matchEnds] at he
      split at he <;> simp at he
      omega
  | wordB =>
      intro i e he hlt
      simp only [matchEnds] at he
      split at he <;> simp at he
      omega
  | eos =>
      intro i e he hlt
      simp only [matchEnds] at he
      split at he <;> simp at he
      omega
  | eom =>
      intro i e he hlt
      simp only [matchEnds] at he
      split at he <;> simp at he
      omega

/-- Properties of `reMatchAt` derived from the candidate-end lemmas. -/
theorem reMatchAt_spec {r : RE} {s : List Char} {i n : Nat}
    (h : reMatchAt r s i = some n) : (i + n) ∈ matchEnds s r i := by
  unfold reMatchAt at h
  cases hm : matchEnds s r i with
  | nil => rw [hm] at h; exact Option.noConfusion h
  | cons e rest =>
      rw [hm] at h
      have hn : n = e - i := by
        have := Option.some.inj h
        omega
      have hmem : e ∈ matchEnds s r i := by rw [hm]; exact List.mem_cons_self e rest
      have hge := matchEnds_ge s r i e hmem
      have heq : i + n = e := by omega
      rw [heq]
      exact List.mem_cons_self e rest

/-! ### The g-flag exec scan

A global `RegExp` repeatedly applied with `exec` returns, on each call, the
leftmost match at or after `lastIndex` and advances `lastIndex` past it; both
tokenizer loops additionally force the cursor one position forward when a
match is empty ("prevent infinite loops" in the source).  `findFirstAux`
models one `exec` call; `scanAllAux` models the whole `while` loop. -/

/-- Leftmost position `p` at or after `pos` at which the matcher succeeds,
with its result; searches at most `fuel` positions. -/
def findFirstAux {α : Type} (m : List Char → Nat → Option α) (s : List Char) :
    Nat → Nat → Option (Nat × α)
  | 0, _ => none
  | fuel + 1, pos =>
      match m s pos with
      | some a => some (pos, a)
      | none => findFirstAux m s fuel (pos + 1)

/-- One `exec` call from `pos`. -/
def findFirst {α : Type} (m : List Char → Nat → Option α) (s : List Char) (pos : Nat) :
    Option (Nat × α) :=
  findFirstAux m s (s.length + 1 - pos) pos

/-- The `while exec` loop from `pos`: all matches found by repeated `exec`,
advancing past each match and forcing one extra position on empty matches. -/
def scanAllAux {α : Type} (m : List Char → Nat → Option α) (lenOf : α → Nat) (s : List Char) :
    Nat → Nat → List (Nat × α)
  | 0, _ => []
  | fuel + 1, pos =>
      match findFirst m s pos with
      | none => []
      | some (p, a) => (p, a) :: scanAllAux m lenOf s fuel (p + max (lenOf a) 1)

/-- The whole scan of the text, starting at `lastIndex = 0`. -/
def scanAll {α : Type} (m : List Char → Nat → Option α) (lenOf : α → Nat) (s : List Char) :
    List (Nat × α) :=
  scanAllAux m lenOf s (s.length + 2) 0

theorem findFirstAux_sound {α : Type} {m : List Char → Nat → Option α} {s : List Char} :
    ∀ {fuel pos p a}, findFirstAux m s fuel pos = some (p, a) →
      m s p = some a ∧ pos ≤ p ∧ p < pos + fuel := by
  intro fuel
  induction fuel with
  | zero => intro pos p a h; exact Option.noConfusion h
  | succ n ih =>
      intro pos p a h
      unfold findFirstAux at h
      cases hm : m s pos with
      | some b =>
          rw [hm] at h
          simp only [Option.some.injEq, Prod.mk.injEq] at h
          obtain ⟨rfl, rfl⟩ := h
          exact ⟨hm, Nat.le_refl _, by omega⟩
      | none =>
          rw [hm] at h
          obtain ⟨h1, h2, h3⟩ := ih h
          exact ⟨h1, by omega, by omega⟩

theorem findFirst_sound {α : Type} {m : List Char → Nat → Option α} {s : List Char}
    {pos p : Nat} {a : α} (h : findFirst m s pos = some (p, a)) :
    m s p = some a ∧ pos ≤ p ∧ p ≤ s.length := by
  obtain ⟨h1, h2, h3⟩ := findFirstAux_sound h
  exact ⟨h1, h2, by unfold findFirst at *; omega⟩

theorem scanAllAux_sound {α : Type} {m : List Char → Nat → Option α} {lenOf : α → Nat}
    {s : List Char} :
    ∀ {fuel pos p a}, (p, a) ∈ scanAllAux m lenOf s fuel pos →
      m s p = some a ∧ pos ≤ p ∧ p ≤ s.length := by
  intro fuel
  induction fuel with
  | zero => intro pos p a h; simp [scanAllAux] at h
  | succ n ih =>
      intro pos p a h
      unfold scanAllAux at h
      cases hf : findFirst m s pos with
      | none => rw [hf] at h; simp at h
      | some q =>
          rw [hf] at h
          obtain ⟨q1, q2⟩ := q
          obtain ⟨hm, hle, hlen⟩ := findFirst_sound hf
          rcases List.mem_cons.mp h with heq | hmem
          · obtain ⟨rfl, rfl⟩ := Prod.mk.injEq q1 q2 p a ▸ heq.symm
            exact ⟨hm, hle, hlen⟩
          · obtain ⟨h1, h2, h3⟩ := ih hmem
            exact ⟨h1, by omega, h3⟩

/-- Every match reported by the scan really is a match of the matcher at a
position inside the text. -/
theorem scanAll_sound {α : Type} {m : List Char → Nat → Option α} {lenOf : α → Nat}
    {s : List Char} {p : Nat} {a : α} (h : (p, a) ∈ scanAll m lenOf s) :
    m s p = some a ∧ p ≤ s.length :=
  ⟨(scanAllAux_sound h).1, (scanAllAux_sound h).2.2⟩

/-! ### The claim set and the emission loop

Both tokenizers keep a `processed : Set<number>` of character offsets already
owned by an emitted token; a candidate token is dropped whole if any offset of
its span is already claimed, and otherwise emitted, claiming its span.  The
claim set is modelled as a `List Nat`; only membership is ever observed. -/

/-- Whether any offset of `[a, a + n)` is in the claim set (the `overlap`
check of the source). -/
def overlapsB (claimed : List Nat) (a n : Nat) : Bool :=
  (List.range' a n).any (fun i => decide (i ∈ claimed))

/-- Claim every offset of `[a, a + n)` (the `processed.add` loop). -/
def claimRange (claimed : List Nat) (a n : Nat) : List Nat :=
  List.range' a n ++ claimed

/-- One candidate token presented to the claim check: dropped whole on any
overlap, otherwise appended and its span claimed. -/
def mergeOne (st : List Token × List Nat) (t : Token) : List Token × List Nat :=
  if overlapsB st.2 t.start (t.stop - t.start) then st
  else (st.1 ++ [t], claimRange st.2 t.start (t.stop - t.start))

/-- A list of candidate tokens presented in order. -/
def mergeAll (st : List Token × List Nat) (ts : List Token) : List Token × List Nat :=
  ts.foldl mergeOne st

/-- The token built from a match `[p, p + n)` of a pattern of kind `ty`
(`match[0]` equals the slice of the text it matched). -/
def mkTok (s : List Char) (ty : TokenType) (pm : Nat × Nat) : Token :=
  ⟨ty, sliceStr s pm.1 (pm.1 + pm.2), pm.1, pm.1 + pm.2⟩

/-- `t` owns offset `i`. -/
def Token.covers (t : Token) (i : Nat) : Prop :=
  t.start ≤ i ∧ i < t.stop

instance (t : Token) (i : Nat) : Decidable (t.covers i) := by
  unfold Token.covers
  infer_instance

/-- Spans of `a` and `b` do not intersect. -/
def disjTok (a b : Token) : Prop :=
  ∀ i, ¬(a.covers i ∧ b.covers i)

theorem disjTok_symm : Symmetric disjTok := by
  intro a b h i hi
  exact h i ⟨hi.2, hi.1⟩

/-- Invariant of the emission state: every offset covered by an emitted token
is claimed, and emitted tokens are pairwise disjoint. -/
def InvSt (st : List Token × List Nat) : Prop :=
  (∀ t ∈ st.1, ∀ i, t.covers i → i ∈ st.2) ∧ st.1.Pairwise disjTok

theorem overlapsB_false_iff {claimed : List Nat} {a n : Nat} :
    overlapsB claimed a n = false ↔ ∀ i, a ≤ i → i < a + n → i ∉ claimed := by
  unfold overlapsB
  rw [← Bool.not_eq_true, List.any_eq_true]
  constructor
  · intro h i h1 h2 hmem
    exact h ⟨i, List.mem_range'_1.mpr ⟨h1, h2⟩, decide_eq_true hmem⟩
  · rintro h ⟨i, hr, hd⟩
    obtain ⟨h1, h2⟩ := List.mem_range'_1.mp hr
    exact h i h1 h2 (of_decide_eq_true hd)

theorem mem_claimRange {claimed : List Nat} {a n i : Nat} :
    i ∈ claimRange claimed a n ↔ (a ≤ i ∧ i < a + n) ∨ i ∈ claimed := by
  unfold claimRange
  rw [List.mem_append, List.mem_range'_1]

theorem covers_range {t : Token} {i : Nat} (h : t.covers i) :
    t.start ≤ i ∧ i < t.start + (t.stop - t.start) := by
  obtain ⟨h1, h2⟩ := h
  omega

theorem mergeOne_inv {st : List Token × List Nat} {t : Token} (h : InvSt st) :
    InvSt (mergeOne st t) := by
  unfold mergeOne
  by_cases hov : overlapsB st.2 t.start (t.stop - t.start) = true
  · simp [hov]; exact h
  · have hov' : overlapsB st.2 t.start (t.stop - t.start) = false := by
      simpa using hov
    simp only [hov', if_neg]
    rw [if_neg (by simp [hov'])]
    obtain ⟨hcl, hpw⟩ := h
    constructor
    · intro u hu i hci
      simp only [List.mem_append, List.mem_singleton] at hu
      rcases hu with hu | rfl
      · exact mem_claimRange.mpr (Or.inr (hcl u hu i hci))
      · exact mem_claimRange.mpr (Or.inl (covers_range hci))
    · rw [List.pairwise_append]
      refine ⟨hpw, List.pairwise_singleton _ _, ?_⟩
      intro u hu v hv i ⟨hui, hvi⟩
      simp only [List.mem_singleton] at hv
      subst hv
      have hclaimed := hcl u hu i hui
      have hnot := (overlapsB_false_iff.mp hov') i (covers_range hvi).1 (covers_range hvi).2
      exact hnot hclaimed

theorem mergeOne_claim_mono {st : List Token × List Nat} {t : Token} {i : Nat}
    (h : i ∈ st.2) : i ∈ (mergeOne st t).2 := by
  unfold mergeOne
  split
  · exact h
  · exact mem_claimRange.mpr (Or.inr h)

theorem mergeOne_tokens {st : List Token × List Nat} {t : Token} :
    (mergeOne st t).1 = st.1 ∨ (mergeOne st t).1 = st.1 ++ [t] := by
  unfold mergeOne
  split
  · exact Or.inl rfl
  · exact Or.inr rfl

theorem mergeAll_inv {ts : List Token} :
    ∀ {st : List Token × List Nat}, InvSt st → InvSt (mergeAll st ts) := by
  induction ts with
  | nil => intro st h; exact h
  | cons t ts ih =>
      intro st h
      exact ih (mergeOne_inv h)

theorem mergeAll_claim_mono {ts : List Token} :
    ∀ {st : List Token × List Nat} {i : Nat}, i ∈ st.2 → i ∈ (mergeAll st ts).2 := by
  induction ts with
  | nil => intro st i h; exact h
  | cons t ts ih =>
      intro st i h
      exact ih (mergeOne_claim_mono h)

/-- The tokens already emitted persist as a prefix, and every newly accepted
token is one of the candidates and was disjoint from every offset claimed at
entry. -/
theorem mergeAll_struct :
    ∀ (ts : List Token) (st : List Token × List Nat), ∃ kept : List Token,
      (mergeAll st ts).1 = st.1 ++ kept ∧
      ∀ t ∈ kept, t ∈ ts ∧ ∀ i, t.covers i → i ∉ st.2 := by
  intro ts
  induction ts with
  | nil => intro st; exact ⟨[], by simp [mergeAll], by simp⟩
  | cons t ts ih =>
      intro st
      unfold mergeAll
      rw [List.foldl_cons]
      obtain ⟨kept, hk, hprop⟩ := ih (mergeOne st t)
      rcases hb : overlapsB st.2 t.start (t.stop - t.start) with hfalse | htrue
      · have hone : mergeOne st t = (st.1 ++ [t], claimRange st.2 t.start (t.stop - t.start)) := by
          unfold mergeOne
          rw [hb]
          simp
        refine ⟨t :: kept, ?_, ?_⟩
        · rw [show (List.foldl mergeOne (mergeOne st t) ts) = mergeAll (mergeOne st t) ts from rfl,
            hk, hone]
          simp
        · intro u hu
          rcases List.mem_cons.mp hu with rfl | hmem
          · refine ⟨List.mem_cons_self _ _, ?_⟩
            intro i hci
            exact (overlapsB_false_iff.mp hb) i (covers_range hci).1 (covers_range hci).2
          · obtain ⟨ht, hdis⟩ := hprop u hmem
            refine ⟨List.mem_cons_of_mem _ ht, ?_⟩
            intro i hci hmem2
            exact hdis i hci (by rw [hone]; exact mem_claimRange.mpr (Or.inr hmem2))
      · have hone : mergeOne st t = st := by
          unfold mergeOne
          rw [hb]
          simp
        refine ⟨kept, ?_, ?_⟩
        · rw [show (List.foldl mergeOne (mergeOne st t) ts) = mergeAll (mergeOne st t) ts from rfl,
            hk, hone]
        · intro u hu
          obtain ⟨ht, hdis⟩ := hprop u hu
          refine ⟨List.mem_cons_of_mem _ ht, ?_⟩
          intro i hci
          rw [hone] at hdis
          exact hdis i hci

/-- If every candidate is pairwise disjoint from the others and from every
offset claimed at entry, the claim check accepts all of them in order. -/
theorem mergeAll_accept_all :
    ∀ (ts : List Token) (st : List Token × List Nat),
      ts.Pairwise disjTok →
      (∀ t ∈ ts, ∀ i, t.covers i → i ∉ st.2) →
      (mergeAll st ts).1 = st.1 ++ ts := by
  intro ts
  induction ts with
  | nil => intro st _ _; simp [mergeAll]
  | cons t ts ih =>
      intro st hpw hdis
      unfold mergeAll
      rw [List.foldl_cons]
      have hov : overlapsB st.2 t.start (t.stop - t.start) = false := by
        rw [overlapsB_false_iff]
        intro i h1 h2
        exact hdis t (List.mem_cons_self _ _) i ⟨h1, by omega⟩
      have hone : mergeOne st t = (st.1 ++ [t], claimRange st.2 t.start (t.stop - t.start)) := by
        unfold mergeOne
        rw [hov]
        simp
      rw [show (List.foldl mergeOne (mergeOne st t) ts) = mergeAll (mergeOne st t) ts from rfl]
      have hrec := ih (mergeOne st t) ((List.pairwise_cons.mp hpw).2) ?_
      · rw [hrec, hone]
        simp
      · intro u hu i hci hcl
        rw [hone] at hcl
        rcases mem_claimRange.mp hcl with hin | hold
        · have hd : disjTok t u := (List.pairwise_cons.mp hpw).1 u hu
          exact hd i ⟨⟨hin.1, by omega⟩, hci⟩
        · exact hdis u (List.mem_cons_of_mem _ hu) i hci hold

/-! ### Pattern tables

Each entry transcribes one pattern of src/patterns/javascript.ts or
src/patterns/html.ts.  `configured` is the regex with its configured flags;
`rebuiltG` is its behavior after the engine rebuilds it from
`pattern.regex.source` with only the `g` flag (getCompiledPatterns and
getCachedRegex do this for the js path, dropping every other flag).  The two
coincide for every pattern except the single-line-comment pattern, whose
configured `m` flag changes the meaning of the `$` anchor. -/

structure LangPattern where
  name : String
  type : TokenType
  flags : String
  configured : RE
  rebuiltG : RE

/-- A quoted literal with escapes, shared shape of the template-literal,
double-quoted-string, single-quoted-string and both attr-value patterns. -/
def quotedRE (q : Char) : RE :=
  .seq (lit q)
    (.seq (.star (.alt (.cls (fun c => !(c == q || c == '\\'))) (.seq (lit '\\') dot)))
      (lit q))

/-- Single-line comments: the source of the configured regex is slash-slash
dot-star dollar; with the `m` flag the anchor accepts line ends, without it
only the end of input. -/
def singleLineCommentRE (multiline : Bool) : RE :=
  .seq (lit '/') (.seq (lit '/') (.seq (.star dot) (if multiline then .eom else .eos)))

/-- Multi-line comments: slash-star, lazy any, star-slash. -/
def multiLineCommentRE : RE :=
  .seq (lit '/') (.seq (lit '*') (.seq (.starL anyChar) (.seq (lit '*') (lit '/'))))

/-- The backtick character. -/
def backquote : Char := Char.ofNat 96

/-- Hex digit class of the number pattern. -/
def isHexDigitJS (c : Char) : Bool :=
  c.isDigit || ('a' ≤ c && c ≤ 'f') || ('A' ≤ c && c ≤ 'F')

/-- Number literals, alternatives in source order: hex, binary, octal, then
decimal with optional fraction and exponent, framed by word boundaries. -/
def numberRE : RE :=
  .seq .wordB
    (.seq
      (altList
        [ .seq (lit '0') (.seq (.cls (fun c => c == 'x' || c == 'X')) (plusRE (.cls isHexDigitJS))),
          .seq (lit '0') (.seq (.cls (fun c => c == 'b' || c == 'B'))
            (plusRE (.cls (fun c => c == '0' || c == '1')))),
          .seq (lit '0') (.seq (.cls (fun c => c == 'o' || c == 'O'))
            (plusRE (.cls (fun c => '0' ≤ c && c ≤ '7')))),
          .seq (plusRE (.cls Char.isDigit))
            (.seq (.opt (lit '.'))
              (.seq (.star (.cls Char.isDigit))
                (.opt (.seq (.cls (fun c => c == 'e' || c == 'E'))
                  (.seq (.opt (.cls (fun c => c == '+' || c == '-')))
                    (plusRE (.cls Char.isDigit))))))) ])
      .wordB)

/-- The keywords of the keyword pattern, in source order. -/
def keywordWords : List String :=
  ["async", "await", "break", "case", "catch", "class", "const", "continue",
   "debugger", "default", "delete", "do", "else", "enum", "export", "extends",
   "false", "finally", "for", "function", "if", "import", "in", "instanceof",
   "let", "new", "null", "return", "super", "switch", "this", "throw", "true",
   "try", "typeof", "undefined", "var", "void", "while", "with", "yield"]

/-- Keywords framed by word boundaries With the alternation in source order. -/
def keywordRE : RE :=
  .seq .wordB (.seq (altList (keywordWords.map (fun w => strRE w.toList))) .wordB)

/-- The operator character class of the operator pattern (it contains the
slash). -/
def opChar (c : Char) : Bool :=
  c == '+' || c == '-' || c == '*' || c == '/' || c == '%' || c == '=' || c == '!' ||
  c == '<' || c == '>' || c == '&' || c == '|' || c == '^' || c == '~' || c == '?' || c == ':'

/-- Operators: one-or-more operator characters, then the multi-character
alternatives of the source (most are shadowed by the class, the dot-dot-dot
alternative is not). -/
def operatorRE : RE :=
  altList
    [ plusRE (.cls opChar),
      strRE "&&".toList, strRE "||".toList, strRE "<<".toList, strRE ">>".toList,
      strRE ">>>".toList, strRE "**".toList, strRE "...".toList, strRE "??".toList ]

/-- The javascriptPatterns table of src/patterns/javascript.ts, in order. -/
def javascriptPatterns : List LangPattern :=
  [ ⟨"single-line-comment", .comment, "gm", singleLineCommentRE true, singleLineCommentRE false⟩,
    ⟨"multi-line-comment", .comment, "g", multiLineCommentRE, multiLineCommentRE⟩,
    ⟨"template-literal", .string, "g", quotedRE backquote, quotedRE backquote⟩,
    ⟨"double-quoted-string", .string, "g", quotedRE '"', quotedRE '"'⟩,
    ⟨"single-quoted-string", .string, "g", quotedRE '\'', quotedRE '\''⟩,
    ⟨"number", .number, "g", numberRE, numberRE⟩,
    ⟨"keyword", .keyword, "g", keywordRE, keywordRE⟩,
    ⟨"operator", .operator, "g", operatorRE, operatorRE⟩ ]

/-- HTML comments. -/
def htmlCommentRE : RE :=
  .seq (strRE "<!--".toList) (.seq (.starL anyChar) (strRE "-->".toList))

/-- JavaScript whitespace for the lookahead of the attr-name pattern and for
String.prototype.trim. -/
def isSpaceJS (c : Char) : Bool :=
  c.isWhitespace || c == Char.ofNat 0x0b || c == Char.ofNat 0x0c || c == Char.ofNat 0xa0

/-- Attribute names: a letter, then letters, digits, colon, underscore or
hyphen, followed (lookahead) by optional whitespace and an equals sign. -/
def attrNameRE : RE :=
  .seq .wordB
    (.seq (.cls Char.isAlpha)
      (.seq (.star (.cls (fun c => c.isAlphanum || c == ':' || c == '_' || c == '-')))
        (.look (.seq (.star (.cls isSpaceJS)) (lit '=')))))

/-- HTML tags: angle bracket, optional slash, a letter, word/colon/hyphen
characters, any non-closing characters, closing angle bracket.  Every literal
in the source regex is a character class closed under case, so the configured
`i` flag does not change its meaning. -/
def tagRE : RE :=
  .seq (lit '<')
    (.seq (.opt (lit '/'))
      (.seq (.cls Char.isAlpha)
        (.seq (.star (.cls (fun c => isWordChar c || c == ':' || c == '-')))
          (.seq (.star (.cls (fun c => !(c == '>')))) (lit '>')))))

/-- The htmlPatterns table of src/patterns/html.ts, in order. -/
def htmlPatterns : List LangPattern :=
  [ ⟨"html-comment", .comment, "g", htmlCommentRE, htmlCommentRE⟩,
    ⟨"attr-value-double", .attrValue, "g", quotedRE '"', quotedRE '"'⟩,
    ⟨"attr-value-single", .attrValue, "g", quotedRE '\'', quotedRE '\''⟩,
    ⟨"attr-name", .attrName, "g", attrNameRE, attrNameRE⟩,
    ⟨"tag", .tag, "gi", tagRE, tagRE⟩ ]

/-! ### The single-grammar tokenizer (tokenizeJavaScript) -/

/-- Token candidates of one pattern: the full scan of the text, one token per
match. -/
def patTokens (s : List Char) (ty : TokenType) (r : RE) : List Token :=
  (scanAll (reMatchAt r) id s).map (mkTok s ty)

/-- The per-pattern loop of a single-grammar tokenization: patterns in table
order, each presenting its matches to the claim check.  `sel` chooses which
compiled form of the regex the loop uses. -/
def runPatterns (s : List Char) (sel : LangPattern → RE) (ps : List LangPattern) :
    List Token × List Nat :=
  ps.foldl (fun st p => mergeAll st (patTokens s p.type (sel p))) ([], [])

/-- Comparison used by the final sort (`(a, b) => a.start - b.start`). -/
def tokLE (a b : Token) : Prop := a.start ≤ b.start

instance : DecidableRel tokLE := fun a b => Nat.decLe a.start b.start

instance : IsTotal Token tokLE := ⟨fun a b => Nat.le_total a.start b.start⟩

instance : IsTrans Token tokLE := ⟨fun _ _ _ h1 h2 => Nat.le_trans h1 h2⟩

/-- Sort tokens ascending by start position. -/
def sortTokens (ts : List Token) : List Token :=
  List.insertionSort tokLE ts

/-- tokenizeJavaScript of src/highlight.ts: the eight javascript patterns in
order, matched with the cached `g`-only rebuilds of their regexes, then the
sort by start. -/
def tokenizeJavaScript (s : List Char) : List Token :=
  sortTokens (runPatterns s (fun p => p.rebuiltG) javascriptPatterns).1

/-! ### The script-area locator of tokenizeHtml

scriptContentPatterns of src/patterns/html.ts holds the two locator regexes
(both with flags `gi`): scriptTagContent matching an opening script tag, a lazy
captured body and a closing script tag, and scriptTagOpen matching the opening
tag alone.  The opening tag part is deterministic (its greedy class cannot
cross the closing angle bracket), and the lazy body binds each opening tag to
the nearest following closing tag, so the matchers are transcribed as direct
scans. -/

/-- Case-insensitive literal test at offset `i` (matching the `i` flag of the
locator regexes). -/
def ciAt : List Char → Nat → List Char → Bool
  | _, _, [] => true
  | s, i, c :: cs =>
      match s[i]? with
      | some d => d.toLower == c.toLower && ciAt s (i + 1) cs
      | none => false

/-- Matcher of scriptTagOpen: a case-insensitive opening script tag with word
boundary, any non-closing characters, and the closing angle bracket; returns
the match length. -/
def scriptOpenMatchAt (s : List Char) (i : Nat) : Option Nat :=
  if ciAt s i "<script".toList && !(wordAt s (i + 7)) then
    match findFirst (fun s j => if s[j]? == some '>' then some 1 else none) s (i + 7) with
    | some (g, _) => some (g + 1 - i)
    | none => none
  else none

/-- Matcher of the closing script tag literal. -/
def scriptCloseMatchAt (s : List Char) (j : Nat) : Option Nat :=
  if ciAt s j "</script>".toList then some 9 else none

/-- Matcher of scriptTagContent: the opening tag, then the lazy captured body
up to the nearest closing tag.  Returns the offset of the capture group inside
the match and the full match length. -/
def scriptContentMatchAt (s : List Char) (i : Nat) : Option (Nat × Nat) :=
  (scriptOpenMatchAt s i).bind (fun o =>
    (findFirst scriptCloseMatchAt s (i + o)).map (fun jn => (o, jn.1 + 9 - i)))

/-- One script area of tokenizeHtml: full bounds, captured content, end of the
opening tag and start of the closing tag. -/
structure ScriptArea where
  start : Nat
  stop : Nat
  content : List Char
  openTagEnd : Nat
  closeTagStart : Nat
  deriving DecidableEq, Repr

/-- Step 1 of tokenizeHtml: scan for script content matches; for each, find
the end of the opening tag with a fresh scriptTagOpen search started at the
match start (falling back to the match start if that search fails), and take
the closing tag start nine characters before the match end. -/
def scriptAreas (code : List Char) : List ScriptArea :=
  (scanAll scriptContentMatchAt (fun x => x.2) code).map (fun pm =>
    ⟨pm.1, pm.1 + pm.2.2,
      sliceStr code (pm.1 + pm.2.1) (pm.1 + pm.2.2 - 9),
      (match findFirst scriptOpenMatchAt code pm.1 with
        | some qo => qo.1 + qo.2
        | none => pm.1),
      pm.1 + pm.2.2 - 9⟩)

/-- The exclusion check of step 2: the candidate span lies inside the inner
text bounds of some script area. -/
def inScriptContent (areas : List ScriptArea) (a b : Nat) : Bool :=
  areas.any (fun sa => decide (sa.openTagEnd ≤ a) && decide (b ≤ sa.closeTagStart))

/-- Host-pattern candidates of step 2: the full scan of one pattern (with its
configured flags), dropping matches inside script content before the claim
check. -/
def hostCandidates (code : List Char) (areas : List ScriptArea) (p : LangPattern) :
    List Token :=
  ((scanAll (reMatchAt p.configured) id code).filter
    (fun pm => !(inScriptContent areas pm.1 (pm.1 + pm.2)))).map (mkTok code p.type)

/-- Step 2 of tokenizeHtml: the html patterns in order over the whole text. -/
def htmlHostPass (code : List Char) : List Token × List Nat :=
  (htmlPatterns).foldl
    (fun st p => mergeAll st (hostCandidates code (scriptAreas code) p)) ([], [])

/-- JavaScript String.prototype.trim truthiness: the text contains a
non-whitespace character. -/
def trimNonempty (s : List Char) : Bool :=
  s.any (fun c => !(isSpaceJS c))

/-- Translate a token from inner-text coordinates into host coordinates. -/
def shiftTok (k : Nat) (t : Token) : Token :=
  ⟨t.type, t.value, t.start + k, t.stop + k⟩

/-- Step 3 of tokenizeHtml: for each script area with non-blank content,
tokenize the content as JavaScript, translate by the end of the opening tag,
and present the translated tokens to the same claim check. -/
def htmlMergeStep (st : List Token × List Nat) (areas : List ScriptArea) :
    List Token × List Nat :=
  areas.foldl
    (fun st sa =>
      if trimNonempty sa.content then
        mergeAll st ((tokenizeJavaScript sa.content).map (shiftTok sa.openTagEnd))
      else st)
    st

/-- tokenizeHtml of src/highlight.ts. -/
def tokenizeHtml (code : List Char) : List Token :=
  sortTokens (htmlMergeStep (htmlHostPass code) (scriptAreas code)).1

/-- The supported languages (the Language union of src/types.ts; the name
Language is taken by the ambient library). -/
inductive Lang where
  | js
  | html
  deriving DecidableEq, Repr

/-- tokenize of src/highlight.ts: the html tokenizer for html, the JavaScript
tokenizer otherwise. -/
def tokenize (code : List Char) : Lang → List Token
  | .html => tokenizeHtml code
  | .js => tokenizeJavaScript code

/-! ### Utilities of src/utils.ts and the public boundary of src/highlight.ts -/

/-- Entity replacement of one character (the HTML_ENTITIES table). -/
def escapeChar (c : Char) : List Char :=
  if c == '<' then "&lt;".toList
  else if c == '>' then "&gt;".toList
  else if c == '&' then "&amp;".toList
  else if c == '"' then "&quot;".toList
  else if c == '\'' then "&#39;".toList
  else [c]

/-- escapeHtml of src/utils.ts. -/
def escapeHtml (s : List Char) : List Char :=
  s.flatMap escapeChar

/-- Whether a regex matches somewhere in the text (RegExp.prototype.test). -/
def hasREMatch (r : RE) (s : List Char) : Bool :=
  (List.range (s.length + 1)).any (fun i => !(matchEnds s r i).isEmpty)

/-- detectLanguage of src/utils.ts: empty or blank text defaults to js; text
matching one of the four html indicator regexes is html; anything else js. -/
def detectLanguage (code : List Char) : Lang :=
  if !(trimNonempty code) then .js
  else if hasREMatch (.seq (lit '<') (.cls (fun c => c.isAlpha || c == '!' || c == '?'))) code
      || hasREMatch (.seq (lit '<') (.seq (lit '/') (.cls Char.isAlpha))) code
      || hasREMatch (strCI "<!DOCTYPE".toList) code
      || hasREMatch (strRE "<!--".toList) code
  then .html
  else .js

/-- CSS class fragment of a token kind (the TokenType string values). -/
def typeClass : TokenType → List Char
  | .keyword => "keyword".toList
  | .string => "string".toList
  | .number => "number".toList
  | .comment => "comment".toList
  | .operator => "operator".toList
  | .tag => "tag".toList
  | .attrName => "attr-name".toList
  | .attrValue => "attr-value".toList

/-- wrapToken of src/utils.ts. -/
def wrapToken (value : List Char) (ty : TokenType) : List Char :=
  "<span class=\"token ".toList ++ typeClass ty ++ "\">".toList ++ value ++ "</span>".toList

/-- The loop of tokensToHtml: escaped literal text between tokens, each token
wrapped, then the escaped tail. -/
def tokensToHtmlLoop (code : List Char) : List Token → Nat → List Char
  | [], lastEnd => escapeHtml (code.drop lastEnd)
  | t :: ts, lastEnd =>
      (if lastEnd < t.start then escapeHtml (sliceStr code lastEnd t.start) else []) ++
        wrapToken (escapeHtml t.value) t.type ++ tokensToHtmlLoop code ts t.stop

/-- tokensToHtml of src/highlight.ts. -/
def tokensToHtml (code : List Char) (tokens : List Token) : List Char :=
  if tokens.isEmpty then escapeHtml code
  else tokensToHtmlLoop code tokens 0

/-- Language resolution of highlight: an explicit valid language wins; an
invalid or falsy value falls back to auto-detection. -/
def resolveLanguage (code : List Char) : Option (List Char) → Lang
  | some l =>
      if l = "js".toList then .js
      else if l = "html".toList then .html
      else detectLanguage code
  | none => detectLanguage code

/-! The try block of highlight is modelled in an error monad whose only
`throw` is the `Pattern not found` exception of getCachedRegex, the single
explicit exception site reachable from tokenize.  The catch branch is
`highlightBoundary`. -/

/-- getCachedRegex for the js path: look the pattern up by name and return its
`g`-only rebuild; an unknown name is the `Pattern not found` throw. -/
def getCachedRegexE (ps : List LangPattern) (nm : String) : Except String RE :=
  match ps.find? (fun p => p.name == nm) with
  | some p => Except.ok p.rebuiltG
  | none => Except.error "Pattern not found"

/-- tokenizeJavaScript with the cache lookup's exception threaded. -/
def runPatternsE (s : List Char) (ps : List LangPattern) :
    Except String (List Token × List Nat) :=
  ps.foldlM
    (fun st p => do
      let r ← getCachedRegexE ps p.name
      pure (mergeAll st (patTokens s p.type r)))
    ([], [])

/-- tokenizeJavaScript in the error monad. -/
def tokenizeJavaScriptE (s : List Char) : Except String (List Token) := do
  let st ← runPatternsE s javascriptPatterns
  pure (sortTokens st.1)

/-- Step 3 of tokenizeHtml in the error monad (its recursive call into the
JavaScript tokenizer is the only fallible part). -/
def htmlMergeStepE (st : List Token × List Nat) :
    List ScriptArea → Except String (List Token × List Nat)
  | [] => Except.ok st
  | sa :: rest =>
      if trimNonempty sa.content then do
        let js ← tokenizeJavaScriptE sa.content
        htmlMergeStepE (mergeAll st (js.map (shiftTok sa.openTagEnd))) rest
      else htmlMergeStepE st rest

/-- tokenizeHtml in the error monad. -/
def tokenizeHtmlE (code : List Char) : Except String (List Token) := do
  let st ← htmlMergeStepE (htmlHostPass code) (scriptAreas code)
  pure (sortTokens st.1)

/-- tokenize in the error monad. -/
def tokenizeE (code : List Char) : Lang → Except String (List Token)
  | .html => tokenizeHtmlE code
  | .js => tokenizeJavaScriptE code

/-- The try block of highlight: empty input short-circuits to the empty
string; otherwise resolve the language, tokenize, and render. -/
def highlightCoreE (code : List Char) (optLang : Option (List Char)) :
    Except String (List Char) :=
  if code.isEmpty then Except.ok []
  else do
    let toks ← tokenizeE code (resolveLanguage code optLang)
    pure (tokensToHtml code toks)

/-- The catch branch of highlight: a caught internal error degrades to the
escaped original input. -/
def highlightBoundary (code : List Char) : Except String (List Char) → List Char
  | Except.ok s => s
  | Except.error _ => escapeHtml code

/-- highlight of src/highlight.ts, for string inputs: the try block guarded by
the catch branch. -/
def highlight (code : List Char) (optLang : Option (List Char)) : List Char :=
  highlightBoundary code (highlightCoreE code optLang)

/-! ### The module-level regex cache as explicit state

`regexCache` of src/highlight.ts maps `language-patternName` keys to `RegExp`
objects whose `lastIndex` survives between calls.  The cache is modelled as an
association list from keys to `lastIndex` values (the regex itself is
determined by the pattern table).  getCachedRegex resets `lastIndex` to 0
before handing the regex to the scan loop, and a failed final `exec` resets it
to 0 again; both writes are modelled. -/

/-- Overwrite the stored lastIndex of a cache key. -/
def setLastIndex (st : List (String × Nat)) (key : String) (v : Nat) :
    List (String × Nat) :=
  (key, v) :: st

/-- getCachedRegex: reset the cached regex object's lastIndex to 0 and hand it
out; the returned number is the lastIndex the scan loop starts from. -/
def getCachedRegexS (st : List (String × Nat)) (key : String) :
    Nat × List (String × Nat) :=
  (0, setLastIndex st key 0)

/-- The per-pattern loop of tokenizeJavaScript with the cache state threaded:
each pattern's scan starts from the lastIndex returned by getCachedRegexS, and
the failed final exec stores 0. -/
def runPatternsS (s : List Char) (cst : List (String × Nat)) (ps : List LangPattern) :
    (List Token × List Nat) × List (String × Nat) :=
  ps.foldl
    (fun q p =>
      let got := getCachedRegexS q.2 ("js-" ++ p.name)
      let ms := scanAllAux (reMatchAt p.rebuiltG) id s (s.length + 2) got.1
      (mergeAll q.1 (ms.map (mkTok s p.type)), setLastIndex got.2 ("js-" ++ p.name) 0))
    (([], []), cst)

/-- tokenizeJavaScript with the cache state threaded. -/
def tokenizeJavaScriptS (cst : List (String × Nat)) (s : List Char) :
    List Token × List (String × Nat) :=
  ((sortTokens (runPatternsS s cst javascriptPatterns).1.1),
    (runPatternsS s cst javascriptPatterns).2)

/-- Step 3 of tokenizeHtml with the cache state threaded through its calls
into the JavaScript tokenizer. -/
def htmlMergeStepS (code : List Char) (cst : List (String × Nat)) :
    (List Token × List Nat) × List (String × Nat) :=
  (scriptAreas code).foldl
    (fun q sa =>
      if trimNonempty sa.content then
        ((mergeAll q.1 ((tokenizeJavaScriptS q.2 sa.content).1.map (shiftTok sa.openTagEnd))),
          (tokenizeJavaScriptS q.2 sa.content).2)
      else q)
    (htmlHostPass code, cst)

/-- tokenizeHtml with the cache state threaded. -/
def tokenizeHtmlS (cst : List (String × Nat)) (code : List Char) :
    List Token × List (String × Nat) :=
  (sortTokens (htmlMergeStepS code cst).1.1, (htmlMergeStepS code cst).2)

/-- tokenize with the cache state threaded. -/
def tokenizeS (cst : List (String × Nat)) (code : List Char) :
    Lang → List Token × List (String × Nat)
  | .html => tokenizeHtmlS cst code
  | .js => tokenizeJavaScriptS cst code

/-! ### Structural lemmas about the tokenizers -/

theorem mem_sortTokens {t : Token} {l : List Token} : t ∈ sortTokens l ↔ t ∈ l :=
  (List.perm_insertionSort tokLE l).mem_iff

theorem sortTokens_pairwise {R : Token → Token → Prop}
    (hR : ∀ {x y : Token}, R x y → R y x) {l : List Token}
    (h : l.Pairwise R) : (sortTokens l).Pairwise R :=
  ((List.perm_insertionSort tokLE l).pairwise_iff hR).mpr h

theorem sortTokens_sorted (l : List Token) : List.Sorted tokLE (sortTokens l) :=
  List.sorted_insertionSort tokLE l

theorem foldl_mergeAll_inv {β : Type} {f : β → List Token} :
    ∀ {ps : List β} {st : List Token × List Nat}, InvSt st →
      InvSt (ps.foldl (fun st p => mergeAll st (f p)) st) := by
  intro ps
  induction ps with
  | nil => intro st h; exact h
  | cons p ps ih =>
      intro st h
      rw [List.foldl_cons]
      exact ih (mergeAll_inv h)

theorem foldl_mergeAll_tokens {β : Type} {f : β → List Token} :
    ∀ {ps : List β} {st : List Token × List Nat} {t : Token},
      t ∈ (ps.foldl (fun st p => mergeAll st (f p)) st).1 →
      t ∈ st.1 ∨ ∃ p ∈ ps, t ∈ f p := by
  intro ps
  induction ps with
  | nil => intro st t h; exact Or.inl h
  | cons p ps ih =>
      intro st t h
      rw [List.foldl_cons] at h
      rcases ih h with hin | ⟨q, hq, hf⟩
      · obtain ⟨kept, hk, hprop⟩ := mergeAll_struct (f p) st
        rw [hk] at hin
        rcases List.mem_append.mp hin with h1 | h2
        · exact Or.inl h1
        · exact Or.inr ⟨p, List.mem_cons_self _ _, ((hprop t h2).1)⟩
      · exact Or.inr ⟨q, List.mem_cons_of_mem _ hq, hf⟩

theorem InvSt_nil : InvSt ([], []) := by
  constructor
  · intro t ht; simp at ht
  · exact List.Pairwise.nil

theorem runPatterns_inv (s : List Char) (sel : LangPattern → RE) (ps : List LangPattern) :
    InvSt (runPatterns s sel ps) :=
  foldl_mergeAll_inv InvSt_nil

theorem runPatterns_tokens {s : List Char} {sel : LangPattern → RE} {ps : List LangPattern}
    {t : Token} (h : t ∈ (runPatterns s sel ps).1) :
    ∃ p ∈ ps, t ∈ patTokens s p.type (sel p) := by
  rcases foldl_mergeAll_tokens h with hin | hex
  · simp at hin
  · exact hex

/-- Well-formedness of a pattern's candidate tokens: the pattern's kind, a
nonempty span inside the text, and the matched slice as value. -/
theorem patTokens_wf {s : List Char} {ty : TokenType} {r : RE} {t : Token}
    (hcons : REconsumes r = true) (h : t ∈ patTokens s ty r) :
    t.type = ty ∧ t.start < t.stop ∧ t.stop ≤ s.length ∧
    t.value = sliceStr s t.start t.stop := by
  unfold patTokens at h
  obtain ⟨pm, hpm, rfl⟩ := List.mem_map.mp h
  obtain ⟨p, n⟩ := pm
  obtain ⟨hm, hp⟩ := scanAll_sound hpm
  have hmem := reMatchAt_spec hm
  have h1 := matchEnds_consumes s r p (p + n) hcons hmem
  have h2 := matchEnds_le s r p (p + n) hp hmem
  exact ⟨rfl, h1, h2, rfl⟩

theorem javascriptPatterns_consume :
    ∀ p ∈ javascriptPatterns, REconsumes p.rebuiltG = true := by
  intro p hp
  simp only [javascriptPatterns, List.mem_cons, List.not_mem_nil, or_false] at hp
  rcases hp with rfl | rfl | rfl | rfl | rfl | rfl | rfl | rfl <;> rfl

theorem htmlPatterns_consume :
    ∀ p ∈ htmlPatterns, REconsumes p.configured = true := by
  intro p hp
  simp only [htmlPatterns, List.mem_cons, List.not_mem_nil, or_false] at hp
  rcases hp with rfl | rfl | rfl | rfl | rfl <;> rfl

theorem tokenizeJavaScript_pairwise (s : List Char) :
    (tokenizeJavaScript s).Pairwise disjTok :=
  sortTokens_pairwise (fun h => disjTok_symm h)
    (runPatterns_inv s (fun p => p.rebuiltG) javascriptPatterns).2

theorem tokenizeJavaScript_wf {s : List Char} {t : Token} (h : t ∈ tokenizeJavaScript s) :
    t.start < t.stop ∧ t.stop ≤ s.length ∧ t.value = sliceStr s t.start t.stop := by
  have h2 := mem_sortTokens.mp h
  obtain ⟨p, hp, ht⟩ := runPatterns_tokens h2
  have := patTokens_wf (javascriptPatterns_consume p hp) ht
  exact ⟨this.2.1, this.2.2⟩

/-! ### Lemmas about the script areas and the html tokenizer -/

theorem sliceStr_length (s : List Char) (a b : Nat) :
    (sliceStr s a b).length = min (b - a) (s.length - a) := by
  simp [sliceStr, List.length_take, List.length_drop]

theorem sliceStr_comp {s : List Char} {k j x y : Nat} (h : k + y ≤ j) :
    sliceStr (sliceStr s k j) x y = sliceStr s (k + x) (k + y) := by
  unfold sliceStr
  rw [List.drop_take, List.take_take, List.drop_drop]
  have h1 : (y - x) ⊓ (j - k - x) = y - x := by omega
  have h2 : (k + y) - (k + x) = y - x := by omega
  rw [h1, h2, Nat.add_comm k x]

theorem ciAt_bound : ∀ (pat : List Char) (c : Char) (s : List Char) (j : Nat),
    ciAt s j (c :: pat) = true → j + pat.length + 1 ≤ s.length := by
  intro pat
  induction pat with
  | nil =>
      intro c s j h
      unfold ciAt at h
      cases hg : s[j]? with
      | some d =>
          have : j < s.length := by
            by_contra hge
            rw [getElem?_neg s j (by omega)] at hg
            exact Option.noConfusion hg
          simpa using this
      | none => rw [hg] at h; simp at h
  | cons c2 cs ih =>
      intro c s j h
      unfold ciAt at h
      cases hg : s[j]? with
      | some d =>
          rw [hg] at h
          simp only [Bool.and_eq_true] at h
          have := ih c2 s (j + 1) h.2
          simp only [List.length_cons]
          omega
      | none => rw [hg] at h; simp at h

theorem findFirst_at_match {α : Type} {m : List Char → Nat → Option α} {s : List Char}
    {p : Nat} {a : α} (hp : p ≤ s.length) (hm : m s p = some a) :
    findFirst m s p = some (p, a) := by
  unfold findFirst
  have h1 : s.length + 1 - p = (s.length - p) + 1 := by omega
  rw [h1]
  unfold findFirstAux
  rw [hm]

/-- Shape facts about every recognized script area: the opening-tag search
re-finds the opening tag of the area itself, the captured content is the slice
between the opening tag end and the closing tag start, and the closing tag
fits inside the text. -/
theorem scriptAreas_spec {code : List Char} {sa : ScriptArea} (h : sa ∈ scriptAreas code) :
    sa.openTagEnd + sa.content.length = sa.closeTagStart ∧
    sa.closeTagStart + 9 = sa.stop ∧
    sa.stop ≤ code.length ∧
    sa.content = sliceStr code sa.openTagEnd sa.closeTagStart := by
  unfold scriptAreas at h
  obtain ⟨pm, hpm, hsa⟩ := List.mem_map.mp h
  obtain ⟨p, o, len⟩ := pm
  obtain ⟨hm, hp⟩ := scanAll_sound hpm
  unfold scriptContentMatchAt at hm
  rw [Option.bind_eq_some] at hm
  obtain ⟨o2, hopen, hmap⟩ := hm
  rw [Option.map_eq_some'] at hmap
  obtain ⟨⟨j, n⟩, hclose, hpair⟩ := hmap
  simp only [Prod.mk.injEq] at hpair
  obtain ⟨rfl, rfl⟩ := hpair
  obtain ⟨hcm, hge, hjle⟩ := findFirst_sound hclose
  unfold scriptCloseMatchAt at hcm
  by_cases hci : ciAt code j "</script>".toList = true
  · have hbound : j + 9 ≤ code.length := by
      have := ciAt_bound ("/script>".toList) '<' code j (by simpa using hci)
      simpa using this
    have hopend : findFirst scriptOpenMatchAt code p = some (p, o2) :=
      findFirst_at_match hp hopen
    subst hsa
    have hcs : p + (j + 9 - p) - 9 = j := by omega
    have hmatch : (match findFirst scriptOpenMatchAt code p with
        | some qo => qo.1 + qo.2
        | none => p) = p + o2 := by rw [hopend]
    refine ⟨?_, ?_, ?_, ?_⟩
    · show (match findFirst scriptOpenMatchAt code p with
          | some qo => qo.1 + qo.2
          | none => p) + (sliceStr code (p + o2) (p + (j + 9 - p) - 9)).length
          = p + (j + 9 - p) - 9
      rw [hmatch, hcs, sliceStr_length]
      omega
    · show p + (j + 9 - p) - 9 + 9 = p + (j + 9 - p)
      omega
    · show p + (j + 9 - p) ≤ code.length
      omega
    · show sliceStr code (p + o2) (p + (j + 9 - p) - 9) =
        sliceStr code (match findFirst scriptOpenMatchAt code p with
          | some qo => qo.1 + qo.2
          | none => p) (p + (j + 9 - p) - 9)
      rw [hmatch]
  · rw [if_neg hci] at hcm
    exact Option.noConfusion hcm

theorem htmlHostPass_inv (code : List Char) : InvSt (htmlHostPass code) :=
  foldl_mergeAll_inv InvSt_nil

theorem htmlHostPass_tokens {code : List Char} {t : Token}
    (h : t ∈ (htmlHostPass code).1) :
    ∃ p ∈ htmlPatterns, t ∈ hostCandidates code (scriptAreas code) p := by
  rcases foldl_mergeAll_tokens h with hin | hex
  · simp at hin
  · exact hex

theorem hostCandidates_sub {code : List Char} {areas : List ScriptArea}
    {p : LangPattern} {t : Token} (h : t ∈ hostCandidates code areas p) :
    t ∈ patTokens code p.type p.configured ∧
    inScriptContent areas t.start t.stop = false := by
  unfold hostCandidates at h
  obtain ⟨pm, hpm, rfl⟩ := List.mem_map.mp h
  obtain ⟨hscan, hskip⟩ := List.mem_filter.mp hpm
  refine ⟨List.mem_map.mpr ⟨pm, hscan, rfl⟩, ?_⟩
  simpa using hskip

theorem htmlMergeStep_inv {areas : List ScriptArea} :
    ∀ {st : List Token × List Nat}, InvSt st → InvSt (htmlMergeStep st areas) := by
  induction areas with
  | nil => intro st h; exact h
  | cons sa rest ih =>
      intro st h
      unfold htmlMergeStep
      rw [List.foldl_cons]
      by_cases htr : trimNonempty sa.content = true
      · rw [if_pos htr]
        exact ih (mergeAll_inv h)
      · rw [if_neg htr]
        exact ih h

theorem htmlMergeStep_tokens {areas : List ScriptArea} :
    ∀ {st : List Token × List Nat} {t : Token}, t ∈ (htmlMergeStep st areas).1 →
      t ∈ st.1 ∨ ∃ sa ∈ areas, ∃ u ∈ tokenizeJavaScript sa.content,
        t = shiftTok sa.openTagEnd u := by
  induction areas with
  | nil => intro st t h; exact Or.inl h
  | cons sa rest ih =>
      intro st t h
      unfold htmlMergeStep at h
      rw [List.foldl_cons] at h
      by_cases htr : trimNonempty sa.content = true
      · rw [if_pos htr] at h
        rcases ih h with hin | ⟨sb, hsb, u, hu, rfl⟩
        · obtain ⟨kept, hk, hprop⟩ :=
            mergeAll_struct ((tokenizeJavaScript sa.content).map (shiftTok sa.openTagEnd)) st
          rw [hk] at hin
          rcases List.mem_append.mp hin with h1 | h2
          · exact Or.inl h1
          · obtain ⟨u, hu, huk⟩ := List.mem_map.mp (hprop t h2).1
            exact Or.inr ⟨sa, List.mem_cons_self _ _, u, hu, huk.symm⟩
        · exact Or.inr ⟨sb, List.mem_cons_of_mem _ hsb, u, hu, rfl⟩
      · rw [if_neg htr] at h
        rcases ih h with hin | ⟨sb, hsb, u, hu, rfl⟩
        · exact Or.inl hin
        · exact Or.inr ⟨sb, List.mem_cons_of_mem _ hsb, u, hu, rfl⟩

theorem tokenizeHtml_pairwise (code : List Char) :
    (tokenizeHtml code).Pairwise disjTok :=
  sortTokens_pairwise (fun h => disjTok_symm h)
    (htmlMergeStep_inv (htmlHostPass_inv code)).2

theorem tokenizeHtml_wf {code : List Char} {t : Token} (h : t ∈ tokenizeHtml code) :
    t.start < t.stop ∧ t.stop ≤ code.length ∧ t.value = sliceStr code t.start t.stop := by
  have h2 := mem_sortTokens.mp h
  rcases htmlMergeStep_tokens h2 with hin | ⟨sa, hsa, u, hu, rfl⟩
  · obtain ⟨p, hp, hc⟩ := htmlHostPass_tokens hin
    have := patTokens_wf (htmlPatterns_consume p hp) (hostCandidates_sub hc).1
    exact ⟨this.2.1, this.2.2⟩
  · obtain ⟨hlen, h9, hstop, hcontent⟩ := scriptAreas_spec hsa
    obtain ⟨hnz, hle, hval⟩ := tokenizeJavaScript_wf hu
    refine ⟨by simp [shiftTok]; omega, by simp [shiftTok]; omega, ?_⟩
    simp only [shiftTok]
    rw [hval, hcontent, sliceStr_comp (by omega), Nat.add_comm u.start _, Nat.add_comm u.stop _]

/-- Combined well-formedness for both tokenize paths. -/
theorem tokenize_wf_helper {code : List Char} {lang : Lang} {t : Token}
    (h : t ∈ tokenize code lang) :
    t.start < t.stop ∧ t.stop ≤ code.length ∧ t.value = sliceStr code t.start t.stop := by
  cases lang with
  | js => exact tokenizeJavaScript_wf h
  | html => exact tokenizeHtml_wf h

/-- Combined pairwise disjointness for both tokenize paths. -/
theorem tokenize_pairwise_helper (code : List Char) (lang : Lang) :
    (tokenize code lang).Pairwise disjTok := by
  cases lang with
  | js => exact tokenizeJavaScript_pairwise code
  | html => exact tokenizeHtml_pairwise code

/-- A start-sorted list of pairwise disjoint tokens with nonempty spans is
gap-ordered and has pairwise distinct starts. -/
theorem sorted_disjoint_chain :
    ∀ {l : List Token}, List.Sorted tokLE l → l.Pairwise disjTok →
      (∀ t ∈ l, t.start < t.stop) →
      l.Chain' (fun a b => a.stop ≤ b.start) ∧
      l.Pairwise (fun a b => a.start ≠ b.start) := by
  intro l
  induction l with
  | nil => intro _ _ _; exact ⟨List.chain'_nil, List.Pairwise.nil⟩
  | cons a rest ih =>
      intro hs hp hnz
      obtain ⟨hsa, hsrest⟩ := List.pairwise_cons.mp hs
      obtain ⟨hpa, hprest⟩ := List.pairwise_cons.mp hp
      have hnzrest : ∀ t ∈ rest, t.start < t.stop :=
        fun t ht => hnz t (List.mem_cons_of_mem _ ht)
      obtain ⟨hchain, hne⟩ := ih hsrest hprest hnzrest
      constructor
      · cases rest with
        | nil => exact List.chain'_singleton a
        | cons b rest2 =>
            rw [List.chain'_cons]
            refine ⟨?_, hchain⟩
            by_contra hgt
            have hble : a.start ≤ b.start := hsa b (List.mem_cons_self _ _)
            have hbnz := hnz b (List.mem_cons_of_mem _ (List.mem_cons_self _ _))
            exact hpa b (List.mem_cons_self _ _) b.start
              ⟨⟨hble, by omega⟩, ⟨Nat.le_refl _, hbnz⟩⟩
      · rw [List.pairwise_cons]
        refine ⟨?_, hne⟩
        intro b hb heq
        have hanz := hnz a (List.mem_cons_self _ _)
        have hbnz := hnz b (List.mem_cons_of_mem _ hb)
        exact hpa b hb a.start ⟨⟨Nat.le_refl _, hanz⟩, ⟨by omega, by omega⟩⟩

/-! ### Claims -/

/-- C1.  Disjointness of the output stream: on both the js path and the
context-switching html path (including tokens translated from embedded script
content, which pass the claim check against host tokens before acceptance),
any two distinct tokens of a tokenize result have non-intersecting spans, so
every character offset of the source is owned by at most one emitted token. -/
theorem tokenize_disjoint (code : List Char) (lang : Lang) :
    (tokenize code lang).Pairwise disjTok :=
  tokenize_pairwise_helper code lang

/-- C5.  Order of the output stream: every tokenize result is sorted ascending
by start; adjacent tokens satisfy `stop <= start` of the next; and no two
tokens share a start offset, so the order is total without a tie-break. -/
theorem tokenize_sorted (code : List Char) (lang : Lang) :
    List.Sorted tokLE (tokenize code lang) ∧
    (tokenize code lang).Chain' (fun a b => a.stop ≤ b.start) ∧
    (tokenize code lang).Pairwise (fun a b => a.start ≠ b.start) := by
  have hsorted : List.Sorted tokLE (tokenize code lang) := by
    cases lang with
    | js => exact sortTokens_sorted _
    | html => exact sortTokens_sorted _
  have hnz : ∀ t ∈ tokenize code lang, t.start < t.stop :=
    fun t ht => (tokenize_wf_helper ht).1
  obtain ⟨hc, hne⟩ :=
    sorted_disjoint_chain hsorted (tokenize_pairwise_helper code lang) hnz
  exact ⟨hsorted, hc, hne⟩

/-- C6.  Token well-formedness: every token of a tokenize result satisfies
`0 <= start < stop <= length code` and carries exactly the source slice
between its bounds as value; in particular no zero-length token is emitted
(every configured pattern consumes at least one character, and an empty match
would only force the scan cursor forward). -/
theorem tokenize_tokens_wellformed (code : List Char) (lang : Lang) :
    ∀ t ∈ tokenize code lang,
      0 ≤ t.start ∧ t.start < t.stop ∧ t.stop ≤ code.length ∧
      t.value = sliceStr code t.start t.stop := by
  intro t ht
  obtain ⟨h1, h2, h3⟩ := tokenize_wf_helper ht
  exact ⟨Nat.zero_le _, h1, h2, h3⟩

/-- Closed witness for C6 at a concrete input. -/
theorem tokenize_tokens_wellformed_witness :
    (⟨.number, "42".toList, 0, 2⟩ : Token) ∈ tokenize "42 + 1".toList .js ∧
    (0 ≤ 0 ∧ 0 < 2 ∧ 2 ≤ ("42 + 1".toList).length ∧
      "42".toList = sliceStr "42 + 1".toList 0 2) := by
  refine ⟨by decide, ?_⟩
  exact tokenize_tokens_wellformed "42 + 1".toList .js ⟨.number, "42".toList, 0, 2⟩ (by decide)

theorem foldl_mergeAll_extends {β : Type} {f : β → List Token} :
    ∀ (ps : List β) (st : List Token × List Nat), ∃ kept : List Token,
      (ps.foldl (fun st p => mergeAll st (f p)) st).1 = st.1 ++ kept := by
  intro ps
  induction ps with
  | nil => intro st; exact ⟨[], by simp⟩
  | cons p ps ih =>
      intro st
      rw [List.foldl_cons]
      obtain ⟨kept1, hk1, _⟩ := mergeAll_struct (f p) st
      obtain ⟨kept2, hk2⟩ := ih (mergeAll st (f p))
      exact ⟨kept1 ++ kept2, by rw [hk2, hk1, List.append_assoc]⟩

/-- C2.  Priority by pattern order with whole-match discard: a candidate any
of whose offsets is already claimed is dropped without emitting anything;
every emitted token carries the kind of the pattern that produced it; and when
a token of an earlier pattern run covers an offset, the only token of the full
run covering that offset is that earlier token, so an overlap between an
earlier and a later pattern is always resolved to the earlier pattern's
kind. -/
theorem pattern_priority :
    (∀ (st : List Token × List Nat) (t : Token),
        overlapsB st.2 t.start (t.stop - t.start) = true → mergeOne st t = st) ∧
    (∀ (s : List Char) (sel : LangPattern → RE) (ps : List LangPattern) (t : Token),
        t ∈ (runPatterns s sel ps).1 → ∃ p ∈ ps, t.type = p.type) ∧
    (∀ (s : List Char) (sel : LangPattern → RE) (ps₁ ps₂ : List LangPattern)
        (i : Nat) (t₁ : Token),
        t₁ ∈ (runPatterns s sel ps₁).1 → t₁.covers i →
        ∀ u ∈ (runPatterns s sel (ps₁ ++ ps₂)).1, u.covers i → u = t₁) := by
  refine ⟨?_, ?_, ?_⟩
  · intro st t h
    unfold mergeOne
    rw [h]
    simp
  · intro s sel ps t ht
    obtain ⟨p, hp, hpt⟩ := runPatterns_tokens ht
    unfold patTokens at hpt
    obtain ⟨pm, _, rfl⟩ := List.mem_map.mp hpt
    exact ⟨p, hp, rfl⟩
  · intro s sel ps₁ ps₂ i t₁ ht₁ hcov u hu hucov
    have hfull : runPatterns s sel (ps₁ ++ ps₂) =
        ps₂.foldl (fun st p => mergeAll st (patTokens s p.type (sel p)))
          (runPatterns s sel ps₁) := by
      unfold runPatterns
      rw [List.foldl_append]
    have ht₁full : t₁ ∈ (runPatterns s sel (ps₁ ++ ps₂)).1 := by
      rw [hfull]
      obtain ⟨kept, hk⟩ :=
        foldl_mergeAll_extends (f := fun p => patTokens s p.type (sel p))
          ps₂ (runPatterns s sel ps₁)
      rw [hk]
      exact List.mem_append.mpr (Or.inl ht₁)
    have hpw := (runPatterns_inv s sel (ps₁ ++ ps₂)).2
    by_contra hne
    exact hpw.forall disjTok_symm hu ht₁full hne i ⟨hucov, hcov⟩

/-- Closed witness for C2: on slash-slash-space-a, the single-line-comment
pattern (earlier) claims offsets 0 to 3, and in the full run the only token
covering offset 0 is that comment token, although the later operator pattern
also matches there. -/
theorem pattern_priority_witness :
    ((⟨.comment, "// a".toList, 0, 4⟩ : Token) ∈
      (runPatterns "// a".toList (fun p => p.rebuiltG) (javascriptPatterns.take 1)).1) ∧
    (∀ u ∈ (runPatterns "// a".toList (fun p => p.rebuiltG)
        (javascriptPatterns.take 1 ++ javascriptPatterns.drop 1)).1,
      u.covers 0 → u = ⟨.comment, "// a".toList, 0, 4⟩) ∧
    mergeOne ([], [0]) ⟨.operator, "/".toList, 0, 1⟩ = ([], [0]) := by
  refine ⟨by decide, ?_, ?_⟩
  · exact pattern_priority.2.2 "// a".toList (fun p => p.rebuiltG)
      (javascriptPatterns.take 1) (javascriptPatterns.drop 1) 0
      ⟨.comment, "// a".toList, 0, 4⟩ (by decide) (by decide)
  · exact pattern_priority.1 ([], [0]) ⟨.operator, "/".toList, 0, 1⟩ (by decide)

/-- C3.  Inner-text-only embedding exclusion: no token of the host pass has
its span inside a script area's inner-text bounds (start at or after the
opening tag end and stop at or before the closing tag start); on a concrete
embedded script the delimiters themselves are emitted as host tag tokens while
the interior is tokenized by the embedded grammar. -/
theorem script_inner_exclusion :
    (∀ (code : List Char) (t : Token), t ∈ (htmlHostPass code).1 →
      ∀ sa ∈ scriptAreas code, ¬(sa.openTagEnd ≤ t.start ∧ t.stop ≤ sa.closeTagStart)) ∧
    tokenizeHtml "<script>var x = 1;</script>".toList =
      [⟨.tag, "<script>".toList, 0, 8⟩,
       ⟨.keyword, "var".toList, 8, 11⟩,
       ⟨.operator, "=".toList, 14, 15⟩,
       ⟨.number, "1".toList, 16, 17⟩,
       ⟨.tag, "</script>".toList, 18, 27⟩] := by
  constructor
  · intro code t ht sa hsa hin
    obtain ⟨p, hp, hc⟩ := htmlHostPass_tokens ht
    have hskip := (hostCandidates_sub hc).2
    unfold inScriptContent at hskip
    rw [← Bool.not_eq_true, List.any_eq_true] at hskip
    exact hskip ⟨sa, hsa, by simp [hin.1, hin.2]⟩
  · decide

/-- Closed witness for C3: the opening script tag token of the host pass does
not lie inside the script area's inner bounds. -/
theorem script_inner_exclusion_witness :
    ((⟨.tag, "<script>".toList, 0, 8⟩ : Token) ∈
      (htmlHostPass "<script>var x = 1;</script>".toList).1) ∧
    ¬((8 : Nat) ≤ 0 ∧ (8 : Nat) ≤ 18) := by
  refine ⟨by decide, ?_⟩
  have := script_inner_exclusion.1 "<script>var x = 1;</script>".toList
    ⟨.tag, "<script>".toList, 0, 8⟩ (by decide)
    ⟨0, 27, "var x = 1;".toList, 8, 18⟩ (by decide)
  exact this

/-- Whether a closing script tag occurs anywhere in the text. -/
def hasCloseTag (code : List Char) : Bool :=
  (List.range (code.length + 1)).any (fun j => ciAt code j "</script>".toList)

theorem findFirstAux_none {α : Type} {m : List Char → Nat → Option α} {s : List Char}
    (h : ∀ q, m s q = none) : ∀ fuel pos, findFirstAux m s fuel pos = none := by
  intro fuel
  induction fuel with
  | zero => intro pos; rfl
  | succ n ih =>
      intro pos
      unfold findFirstAux
      rw [h pos]
      exact ih (pos + 1)

theorem scanAll_eq_nil {α : Type} {m : List Char → Nat → Option α} {lenOf : α → Nat}
    {s : List Char} (h : ∀ q, m s q = none) : scanAll m lenOf s = [] := by
  unfold scanAll
  have h2 : s.length + 2 = (s.length + 1) + 1 := rfl
  rw [h2]
  unfold scanAllAux
  unfold findFirst
  rw [findFirstAux_none h _ _]

theorem inScriptContent_nil (a b : Nat) : inScriptContent [] a b = false := rfl

theorem hostCandidates_no_area (code : List Char) (p : LangPattern) :
    hostCandidates code [] p = patTokens code p.type p.configured := by
  unfold hostCandidates patTokens
  congr 1
  apply List.filter_eq_self.mpr
  intro pm _
  rw [inScriptContent_nil]
  rfl

/-- C7.  Fail toward the host grammar on a missing closing delimiter: when no
closing script tag occurs anywhere, the locator recognizes no script area, and
tokenizeHtml equals the plain single-grammar run of the html pattern table
over the whole text (the would-be content is tokenized under host rules, and
the total function drops nothing and raises nothing). -/
theorem missing_close_host_fallback (code : List Char) (h : hasCloseTag code = false) :
    scriptAreas code = [] ∧
    tokenizeHtml code =
      sortTokens (runPatterns code (fun p => p.configured) htmlPatterns).1 := by
  have hclose : ∀ q, scriptCloseMatchAt code q = none := by
    intro q
    unfold scriptCloseMatchAt
    by_cases hci : ciAt code q "</script>".toList = true
    · exfalso
      have hb := ciAt_bound ("/script>".toList) '<' code q (by simpa using hci)
      have hq : q ∈ List.range (code.length + 1) := by
        rw [List.mem_range]
        simp at hb
        omega
      have : hasCloseTag code = true := by
        unfold hasCloseTag
        rw [List.any_eq_true]
        exact ⟨q, hq, hci⟩
      rw [h] at this
      exact Bool.noConfusion this
    · rw [if_neg hci]
  have hcontent : ∀ q, scriptContentMatchAt code q = none := by
    intro q
    unfold scriptContentMatchAt
    cases hop : scriptOpenMatchAt code q with
    | none => rfl
    | some o =>
        show (findFirst scriptCloseMatchAt code (q + o)).map
          (fun jn => (o, jn.1 + 9 - q)) = none
        unfold findFirst
        rw [findFirstAux_none hclose _ _]
        rfl
  have hareas : scriptAreas code = [] := by
    unfold scriptAreas
    rw [scanAll_eq_nil hcontent]
    rfl
  refine ⟨hareas, ?_⟩
  unfold tokenizeHtml
  rw [hareas]
  unfold htmlMergeStep
  rw [List.foldl_nil]
  unfold htmlHostPass
  rw [hareas]
  unfold runPatterns
  have hfun : (fun (st : List Token × List Nat) (p : LangPattern) =>
      mergeAll st (hostCandidates code [] p)) =
      (fun (st : List Token × List Nat) (p : LangPattern) =>
        mergeAll st (patTokens code p.type p.configured)) := by
    funext st p
    rw [hostCandidates_no_area]
  rw [hfun]

/-- Closed witness for C7: an opening script tag with no closing delimiter is
not recognized as a script area, and its would-be content is tokenized under
the host grammar (the quoted literal becomes an attr-value token, not a js
string token). -/
theorem missing_close_host_fallback_witness :
    hasCloseTag "<script>var s = \"a\";".toList = false ∧
    scriptAreas "<script>var s = \"a\";".toList = [] ∧
    tokenizeHtml "<script>var s = \"a\";".toList =
      [⟨.tag, "<script>".toList, 0, 8⟩,
       ⟨.attrName, "s".toList, 12, 13⟩,
       ⟨.attrValue, "\"a\"".toList, 16, 19⟩] := by
  have hfb := missing_close_host_fallback "<script>var s = \"a\";".toList (by decide)
  exact ⟨by decide, hfb.1, by decide⟩

theorem isSpaceJS_cases {c : Char} (h : isSpaceJS c = true) :
    c = ' ' ∨ c = '\t' ∨ c = '\x0d' ∨ c = '\n' ∨
    c = Char.ofNat 0x0b ∨ c = Char.ofNat 0x0c ∨ c = Char.ofNat 0xa0 := by
  unfold isSpaceJS Char.isWhitespace at h
  simp only [Bool.or_eq_true, decide_eq_true_eq, beq_iff_eq] at h
  tauto

/-- No javascript pattern can begin a match with a whitespace character. -/
theorem js_canStart_not_space {p : LangPattern} (hp : p ∈ javascriptPatterns)
    {c : Char} (hs : isSpaceJS c = true) : canStart p.rebuiltG c = false := by
  rcases isSpaceJS_cases hs with rfl | rfl | rfl | rfl | rfl | rfl | rfl <;>
    (simp only [javascriptPatterns, List.mem_cons, List.not_mem_nil, or_false] at hp;
     rcases hp with rfl | rfl | rfl | rfl | rfl | rfl | rfl | rfl <;> rfl)

/-- A JavaScript token forces a non-blank character into the text, so the
trim check of the html merge step passes whenever the embedded grammar
produced any token at all. -/
theorem tokenizeJavaScript_trim {s : List Char} {t : Token}
    (h : t ∈ tokenizeJavaScript s) : trimNonempty s = true := by
  have h2 := mem_sortTokens.mp h
  obtain ⟨p, hp, hpt⟩ := runPatterns_tokens h2
  unfold patTokens at hpt
  obtain ⟨pm, hpm, rfl⟩ := List.mem_map.mp hpt
  obtain ⟨po, n⟩ := pm
  obtain ⟨hm, hple⟩ := scanAll_sound hpm
  have hmem := reMatchAt_spec hm
  have hlt := matchEnds_consumes s _ po (po + n) (javascriptPatterns_consume p hp) hmem
  obtain ⟨c, hc, hcs⟩ := matchEnds_canStart s _ po (po + n) hmem hlt
  have hcmem : c ∈ s := by
    obtain ⟨hb, he⟩ := List.getElem?_eq_some.mp hc
    exact he ▸ List.getElem_mem hb
  unfold trimNonempty
  rw [List.any_eq_true]
  refine ⟨c, hcmem, ?_⟩
  by_cases hsp : isSpaceJS c = true
  · rw [js_canStart_not_space hp hsp] at hcs
    exact Bool.noConfusion hcs
  · simp [hsp]

theorem shiftTok_disj {k : Nat} {a b : Token} (h : disjTok a b) :
    disjTok (shiftTok k a) (shiftTok k b) := by
  intro i ⟨⟨h1, h2⟩, ⟨h3, h4⟩⟩
  simp only [shiftTok] at h1 h2 h3 h4
  exact h (i - k) ⟨⟨by omega, by omega⟩, ⟨by omega, by omega⟩⟩

/-- C4 counterexample.  The host text has exactly one script area with inner
text `x="c"` at offset 13, and the embedded tokenization of that inner text
contains the operator token at offsets 1 to 2; but its translation by 13 is
absent from the host tokenization, because a host attr-value match straddling
from the opening tag into the script content claimed those offsets first. -/
theorem embedding_roundtrip_cex :
    scriptAreas "<script a=\"b>x=\"c\"</script>".toList =
      [⟨0, 27, "x=\"c\"".toList, 13, 18⟩] ∧
    (⟨.operator, "=".toList, 1, 2⟩ : Token) ∈ tokenizeJavaScript "x=\"c\"".toList ∧
    shiftTok 13 ⟨.operator, "=".toList, 1, 2⟩ ∉
      tokenizeHtml "<script a=\"b>x=\"c\"</script>".toList ∧
    (⟨.attrValue, "\"b>x=\"".toList, 10, 16⟩ : Token) ∈
      tokenizeHtml "<script a=\"b>x=\"c\"</script>".toList := by
  refine ⟨by decide, by decide, by decide, by decide⟩

/-- C4 amended.  Embedding round-trip under coordinate translation, provided
no offset of the script area's inner text span was claimed by a host token:
every token of the embedded tokenization of the inner text appears verbatim in
the host tokenization, with start and stop translated by the opening tag
end. -/
theorem embedding_roundtrip (H : List Char) (sa : ScriptArea) (t : Token)
    (h1 : scriptAreas H = [sa])
    (h2 : ∀ i ∈ List.range' sa.openTagEnd sa.content.length, i ∉ (htmlHostPass H).2)
    (h3 : t ∈ tokenizeJavaScript sa.content) :
    shiftTok sa.openTagEnd t ∈ tokenizeHtml H := by
  unfold tokenizeHtml
  rw [h1]
  rw [mem_sortTokens]
  unfold htmlMergeStep
  rw [List.foldl_cons, List.foldl_nil, if_pos (tokenizeJavaScript_trim h3)]
  have hpw : ((tokenizeJavaScript sa.content).map (shiftTok sa.openTagEnd)).Pairwise disjTok :=
    List.Pairwise.map _ (fun a b hab => shiftTok_disj hab)
      (tokenizeJavaScript_pairwise sa.content)
  have hdis : ∀ u ∈ (tokenizeJavaScript sa.content).map (shiftTok sa.openTagEnd),
      ∀ i, u.covers i → i ∉ (htmlHostPass H).2 := by
    intro u hu i hci
    obtain ⟨v, hv, rfl⟩ := List.mem_map.mp hu
    obtain ⟨hnz, hle, _⟩ := tokenizeJavaScript_wf hv
    obtain ⟨hc1, hc2⟩ := hci
    simp only [shiftTok] at hc1 hc2
    apply h2
    rw [List.mem_range'_1]
    omega
  rw [mergeAll_accept_all _ _ hpw hdis]
  exact List.mem_append.mpr (Or.inr (List.mem_map.mpr ⟨t, h3, rfl⟩))

/-- Closed witness for the amended C4 on a well-formed embedding. -/
theorem embedding_roundtrip_witness :
    scriptAreas "<script>var x = 1;</script>".toList =
      [⟨0, 27, "var x = 1;".toList, 8, 18⟩] ∧
    (⟨.keyword, "var".toList, 0, 3⟩ : Token) ∈ tokenizeJavaScript "var x = 1;".toList ∧
    shiftTok 8 ⟨.keyword, "var".toList, 0, 3⟩ ∈
      tokenizeHtml "<script>var x = 1;</script>".toList := by
  refine ⟨by decide, by decide, ?_⟩
  exact embedding_roundtrip "<script>var x = 1;</script>".toList
    ⟨0, 27, "var x = 1;".toList, 8, 18⟩ ⟨.keyword, "var".toList, 0, 3⟩
    (by decide) (by decide) (by decide)

theorem tokenizeJavaScriptE_ok (s : List Char) :
    tokenizeJavaScriptE s = Except.ok (tokenizeJavaScript s) := rfl

theorem htmlMergeStepE_ok :
    ∀ (areas : List ScriptArea) (st : List Token × List Nat),
      htmlMergeStepE st areas = Except.ok (htmlMergeStep st areas) := by
  intro areas
  induction areas with
  | nil => intro st; rfl
  | cons sa rest ih =>
      intro st
      unfold htmlMergeStepE htmlMergeStep
      rw [List.foldl_cons]
      by_cases htr : trimNonempty sa.content = true
      · rw [if_pos htr, if_pos htr, tokenizeJavaScriptE_ok]
        show htmlMergeStepE (mergeAll st _) rest = _
        rw [ih]
        rfl
      · rw [if_neg htr, if_neg htr]
        exact ih st

theorem tokenizeE_ok (code : List Char) (lang : Lang) :
    tokenizeE code lang = Except.ok (tokenize code lang) := by
  cases lang with
  | js => rfl
  | html =>
      unfold tokenizeE tokenizeHtmlE tokenize tokenizeHtml
      rw [htmlMergeStepE_ok]
      rfl

/-- C8.  The public boundary never raises and degrades to escaped input: for
every string input the try block completes with the value highlight returns
(the one modelled exception site, the cache lookup of getCachedRegex, is
unreachable), and the catch branch, were any internal error to reach it,
returns the HTML-escaped original input. -/
theorem highlight_never_throws (code : List Char) (optLang : Option (List Char)) :
    highlightCoreE code optLang = Except.ok (highlight code optLang) ∧
    (∀ msg : String, highlightBoundary code (Except.error msg) = escapeHtml code) := by
  refine ⟨?_, fun msg => rfl⟩
  have hok : ∀ r : List Char, highlightCoreE code optLang = Except.ok r →
      highlight code optLang = r := by
    intro r h
    unfold highlight
    rw [h]
    rfl
  unfold highlightCoreE
  by_cases he : code.isEmpty = true
  · rw [if_pos he]
    have : highlight code optLang = [] := by
      unfold highlight highlightCoreE
      rw [if_pos he]
      rfl
    rw [this]
  · rw [if_neg he]
    rw [tokenizeE_ok]
    have : highlight code optLang =
        tokensToHtml code (tokenize code (resolveLanguage code optLang)) := by
      unfold highlight highlightCoreE
      rw [if_neg he, tokenizeE_ok]
      rfl
    rw [this]
    rfl

theorem foldl_fst_eq {σ γ β : Type} {F : σ × γ → β → σ × γ} {G : σ → β → σ}
    (hFG : ∀ st c p, (F (st, c) p).1 = G st p) :
    ∀ (ps : List β) (st : σ) (c : γ), (ps.foldl F (st, c)).1 = ps.foldl G st := by
  intro ps
  induction ps with
  | nil => intro st c; rfl
  | cons p ps ih =>
      intro st c
      rw [List.foldl_cons, List.foldl_cons]
      have h2 := ih (F (st, c) p).1 (F (st, c) p).2
      have h3 : ((ps.foldl F (F (st, c) p)).1 : σ) = ps.foldl G (F (st, c) p).1 := h2
      rw [hFG st c p] at h3
      exact h3

theorem tokenizeJavaScriptS_fst (cst : List (String × Nat)) (s : List Char) :
    (tokenizeJavaScriptS cst s).1 = tokenizeJavaScript s := by
  unfold tokenizeJavaScriptS tokenizeJavaScript runPatternsS runPatterns
  rw [foldl_fst_eq (G := fun st p =>
    mergeAll st (patTokens s p.type p.rebuiltG)) (fun st c p => rfl)]

theorem tokenizeHtmlS_fst (cst : List (String × Nat)) (code : List Char) :
    (tokenizeHtmlS cst code).1 = tokenizeHtml code := by
  unfold tokenizeHtmlS tokenizeHtml htmlMergeStepS htmlMergeStep
  rw [foldl_fst_eq (G := fun st sa =>
    if trimNonempty sa.content then
      mergeAll st ((tokenizeJavaScript sa.content).map (shiftTok sa.openTagEnd))
    else st)]
  intro st c sa
  by_cases htr : trimNonempty sa.content = true
  · rw [if_pos htr, if_pos htr]
    show mergeAll st ((tokenizeJavaScriptS c sa.content).1.map (shiftTok sa.openTagEnd)) = _
    rw [tokenizeJavaScriptS_fst]
  · rw [if_neg htr, if_neg htr]

/-- C9.  Idempotence and determinism across calls: with the module-level regex
cache and the lastIndex state of the cached regex objects modelled explicitly,
the token stream of a call does not depend on the incoming cache state (the
lastIndex reset of getCachedRegex guarantees this), so a second call with the
same source and language returns exactly the first call's result. -/
theorem tokenize_cache_independent (cst : List (String × Nat)) (code : List Char)
    (lang : Lang) :
    (tokenizeS cst code lang).1 = tokenize code lang ∧
    (tokenizeS (tokenizeS cst code lang).2 code lang).1 = (tokenizeS cst code lang).1 := by
  have hfst : ∀ c : List (String × Nat), (tokenizeS c code lang).1 = tokenize code lang := by
    intro c
    cases lang with
    | js => exact tokenizeJavaScriptS_fst c code
    | html => exact tokenizeHtmlS_fst c code
  exact ⟨hfst cst, by rw [hfst, hfst]⟩

/-- C10.  The js path matches every pattern with a RegExp rebuilt from the
pattern's source with exactly the g flag, so the configured m flag of the
single-line-comment pattern is dropped there, while the html pass keeps each
pattern's configured flags: only the single-line-comment entry differs between
its configured and rebuilt forms, the multiline regex matches the comment on
the first line of the demo input, the rebuilt one does not match at all, and
the engine therefore lexes the two slashes as an operator token. -/
theorem js_regex_flags_stripped :
    (∀ s : List Char, tokenizeJavaScript s =
      sortTokens (runPatterns s (fun p => p.rebuiltG) javascriptPatterns).1) ∧
    (∃ p ∈ javascriptPatterns, p.name = "single-line-comment" ∧ p.flags = "gm" ∧
      p.configured = singleLineCommentRE true ∧ p.rebuiltG = singleLineCommentRE false) ∧
    (∀ p ∈ javascriptPatterns, p.name ≠ "single-line-comment" →
      p.rebuiltG = p.configured) ∧
    (∀ p ∈ htmlPatterns, p.rebuiltG = p.configured) ∧
    reMatchAt (singleLineCommentRE true) "//a\nb".toList 0 = some 3 ∧
    reMatchAt (singleLineCommentRE false) "//a\nb".toList 0 = none ∧
    tokenizeJavaScript "//a\nb".toList = [⟨.operator, "//".toList, 0, 2⟩] := by
  refine ⟨fun s => rfl, ?_, ?_, ?_, by decide, by decide, by decide⟩
  · exact ⟨⟨"single-line-comment", .comment, "gm",
      singleLineCommentRE true, singleLineCommentRE false⟩,
      List.mem_cons_self _ _, rfl, rfl, rfl, rfl⟩
  · intro p hp hne
    simp only [javascriptPatterns, List.mem_cons, List.not_mem_nil, or_false] at hp
    rcases hp with rfl | rfl | rfl | rfl | rfl | rfl | rfl | rfl
    · exact absurd rfl hne
    all_goals rfl
  · intro p hp
    simp only [htmlPatterns, List.mem_cons, List.not_mem_nil, or_false] at hp
    rcases hp with rfl | rfl | rfl | rfl | rfl <;> rfl

/-- Closed witness for C10: the multi-line-comment pattern is rebuilt
unchanged. -/
theorem js_regex_flags_stripped_witness :
    (⟨"multi-line-comment", TokenType.comment, "g",
        multiLineCommentRE, multiLineCommentRE⟩ : LangPattern).rebuiltG =
      (⟨"multi-line-comment", TokenType.comment, "g",
        multiLineCommentRE, multiLineCommentRE⟩ : LangPattern).configured := by
  exact js_regex_flags_stripped.2.2.1
    ⟨"multi-line-comment", TokenType.comment, "g", multiLineCommentRE, multiLineCommentRE⟩
    (by unfold javascriptPatterns; exact List.mem_cons_of_mem _ (List.mem_cons_self _ _))
    (by decide)
